import Mathlib

/-!
# RPN calculator (`rpn_calc.cpp`): embedding and verified properties

The C++ class `RPNCalculator` is embedded as explicit state passing over a
record holding the operand stack and the history.

Modelling conventions.

* `double` values are rationals (`ℚ`): arithmetic is exact, there is no
  rounding, infinity or NaN.  The accumulators of the two loops (`fibonacci`,
  `pascal`) are given a second time in IEEE 754 binary64 arithmetic (`Dbl`), and
  statements about the values they produce say which arithmetic they are about.
* `int` is a mathematical integer together with the 32-bit range
  `INT_MIN .. INT_MAX`.  An operation whose result leaves the range
  (`static_cast<int>` of a value that does not fit, `i++` at `INT_MAX`) has
  undefined behaviour in C++; it is recorded as the outcome `undefined`.
* A C++ exception is the outcome `throw e c`, where `c` is the calculator as
  the throwing code left it (mutations made before the `throw` persist).
* The library functions `std::sqrt`, `std::pow`, `std::sin`, `std::cos`,
  `std::tan`, `std::to_string` and the constant `M_PI` are not part of the
  program; they are taken as a parameter (`CLib`).
* The top of the stack is the head of the list.
* A `std::string` is a list of characters; `std::isdigit` is the classic-locale
  test for the characters `0` to `9`.
* What `batchCalculation` prints is the list of lines it returns, one per
  expression.
-/

namespace RPN

/-! ## Data model -/

/-- The exceptions the program can raise, one constructor per distinct `throw`. -/
inductive RPNError where
  /-- `pop` / `peek` on an empty stack: "错误: 栈为空". -/
  | stackEmpty
  /-- `fibonacci(n)` with `n < 0`: "斐波那契数不能为负数". -/
  | fibNegative
  /-- `pascal(row, col)` with a coordinate out of the triangle: "杨辉三角坐标无效". -/
  | pascalCoordinates
  /-- `calculate`: "错误: 需要<count>个操作数…" for the operator `operation`. -/
  | needOperands (count : Nat) (operation : String)
  /-- `calculate("/")`: "错误: 除零错误". -/
  | divisionByZero
  /-- `calculate("sqrt")`: "错误: 不能对负数求平方根". -/
  | negativeSqrt
  /-- `calculate("tan")`: "错误: 正切值不存在". -/
  | tangentUndefined
  /-- `calculate("fib")`: "错误: 斐波那契数必须是非负整数". -/
  | fibArgument
  /-- `calculate("pascal")`: "错误: 杨辉三角坐标必须是整数". -/
  | pascalNotInteger
  /-- `calculate`: "错误: 未知操作符 '<operation>'". -/
  | unknownOperator (operation : String)
  /-- `processExpression`: "错误: 无效的token '<t>'". -/
  | invalidToken (t : String)
  /-- `processExpression`: "错误: 表达式不完整". -/
  | incompleteExpression
  /-- `std::invalid_argument` raised by `std::stod` when no conversion is possible. -/
  | stodInvalidArgument
  deriving DecidableEq, Repr

/-- The state of an `RPNCalculator` object: `stack` (top first) and `history`. -/
structure RPNCalculator where
  stack : List ℚ
  history : List String
  deriving DecidableEq

/-- The library functions and constant used by `calculate` and `processExpression`. -/
structure CLib where
  sqrt : ℚ → ℚ
  pow : ℚ → ℚ → ℚ
  sin : ℚ → ℚ
  cos : ℚ → ℚ
  tan : ℚ → ℚ
  M_PI : ℚ
  to_string : ℚ → String

/-- Result of running a member function on a calculator. -/
inductive Outcome (α : Type) where
  /-- Normal return with the value and the calculator afterwards. -/
  | ok (value : α) (state : RPNCalculator)
  /-- An exception propagates; `state` is the calculator as left behind. -/
  | throw (e : RPNError) (state : RPNCalculator)
  /-- Undefined behaviour was reached. -/
  | undefined
  deriving DecidableEq

/-- A member function: from the calculator before the call to its outcome. -/
def M (α : Type) : Type := RPNCalculator → Outcome α

/-- Sequencing of statements: an exception or undefined behaviour ends the run. -/
def M.bind {α β : Type} (m : M α) (f : α → M β) : M β := fun c =>
  match m c with
  | .ok a c1 => f a c1
  | .throw e c1 => .throw e c1
  | .undefined => .undefined

instance : Monad M where
  pure a := fun c => .ok a c
  bind := M.bind

/-- The statement `throw std::runtime_error(...)`. -/
def raise {α : Type} (e : RPNError) : M α := fun c => .throw e c

/-- Smallest value of `int`. -/
def INT_MIN : Int := -2147483648

/-- Largest value of `int`. -/
def INT_MAX : Int := 2147483647

/-- Truncation of a `double` toward zero (the fractional part is discarded). -/
def trunc (x : ℚ) : Int := x.num.tdiv x.den

/-- The conversion `static_cast<int>(x)` of a `double`: truncation toward zero,
undefined when the truncated value is not representable. -/
def staticCastInt (x : ℚ) : M Int := fun c =>
  if INT_MIN ≤ trunc x ∧ trunc x ≤ INT_MAX then .ok (trunc x) c else .undefined

/-! ## Token classification -/

/-- The loop of `isNumber` over the characters from `start` on. -/
def isNumberLoop : List Char → Bool → Bool
  | [], _ => true
  | ch :: rest, hasDecimal =>
    if ch = '.' then
      if hasDecimal then false else isNumberLoop rest true
    else if !ch.isDigit then false
    else isNumberLoop rest hasDecimal

/-- `RPNCalculator::isNumber`. -/
def isNumber (str : String) : Bool :=
  if str.data.isEmpty then false
  else if str.data.head? = some '-' then
    if str.data.length = 1 then false
    else isNumberLoop (str.data.drop 1) false
  else isNumberLoop (str.data.drop 0) false

/-- `RPNCalculator::isOperator`. -/
def isOperator (str : String) : Bool :=
  str = "+" || str = "-" || str = "*" || str = "/" ||
  str = "sqrt" || str = "^" || str = "sin" || str = "cos" ||
  str = "tan" || str = "fib" || str = "pascal"

/-! ## Fibonacci and Pascal -/

/-- The `for (int i = 2; i <= n; i++)` loop of `fibonacci`, entered at `i`
with the accumulators `a`, `b`, over exact arithmetic (`fibAccDouble` gives the
accumulators in binary64). -/
def fibonacciLoop (n i : Int) (a b : ℚ) : M ℚ :=
  if h : i ≤ n then
    if i < INT_MAX then fibonacciLoop n (i + 1) b (a + b)
    else fun _ => .undefined
  else pure b
termination_by (n + 1 - i).toNat
decreasing_by omega

/-- `RPNCalculator::fibonacci`. -/
def fibonacci (n : Int) : M ℚ :=
  if n < 0 then raise .fibNegative
  else if n = 0 then pure 0
  else if n = 1 then pure 1
  else fibonacciLoop n 2 0 1

/-- The `for (int i = 1; i <= col; i++)` loop of `pascal`, entered at `i`
with the accumulator `result`, over exact arithmetic (`pascalAccDouble` gives
the accumulator in binary64). -/
def pascalLoop (row col i : Int) (result : ℚ) : M ℚ :=
  if h : i ≤ col then
    if INT_MIN ≤ row - i ∧ row - i ≤ INT_MAX ∧ row - i + 1 ≤ INT_MAX then
      if i < INT_MAX then
        pascalLoop row col (i + 1) (result * ((row - i + 1 : Int) : ℚ) / (i : ℚ))
      else fun _ => .undefined
    else fun _ => .undefined
  else pure result
termination_by (col + 1 - i).toNat
decreasing_by omega

/-- `RPNCalculator::pascal`. -/
def pascal (row col : Int) : M ℚ :=
  if row < 0 ∨ col < 0 ∨ col > row then raise .pascalCoordinates
  else pascalLoop row col 1 1

/-- The value of `result` in `pascal(row, col)` after `i` iterations of the
loop body `result = result * (row - i + 1) / i` (the counter takes the values
1, 2, ..., `i`), over exact arithmetic. -/
def pascalAcc (row : Int) : Nat → ℚ
  | 0 => 1
  | i + 1 => pascalAcc row i * ((row - ((i : Int) + 1) + 1 : Int) : ℚ) / (((i : Int) + 1 : Int) : ℚ)

/-! ## The accumulators in binary64 arithmetic

The loops of `fibonacci` and `pascal` accumulate in `double`.  Beside the exact
model above, their accumulators are given here in IEEE 754 binary64
arithmetic (round to nearest, ties to even), to state where the exact model
and the program agree and where they part.  Only non-negative values arise in
these loops. -/

/-- Number of binary digits of `n` (`fuel` bounds the recursion; `bitLength n n`
is the bit length of `n`). -/
def bitLength : Nat → Nat → Nat
  | 0, _ => 0
  | _ + 1, 0 => 0
  | fuel + 1, n + 1 => bitLength fuel ((n + 1) / 2) + 1

/-- A non-negative `double`: the finite value `mant * 2 ^ exp`, or `+inf`. -/
inductive Dbl where
  | finite (mant : Nat) (exp : Int)
  | inf
  deriving DecidableEq, Repr

/-- The `double` nearest to the rational `p / q` (`q > 0`), ties to even: a
53-bit significand for normal values, the fixed quantum `2 ^ (-1074)` for
subnormal ones, and `+inf` when the rounded value reaches `2 ^ 1024`. -/
def roundRat (p q : Nat) : Dbl :=
  if p = 0 then .finite 0 0
  else
    let d : Int := (bitLength p p : Int) - (bitLength q q : Int)
    let ge : Bool :=
      if 0 ≤ d then decide (q * 2 ^ d.toNat ≤ p) else decide (q ≤ p * 2 ^ (-d).toNat)
    let E : Int := if ge then d else d - 1
    let s : Int := if E < -1022 then 1074 else 52 - E
    let N : Nat := p * 2 ^ s.toNat
    let D : Nat := q * 2 ^ (-s).toNat
    let quot := N / D
    let rem := N % D
    let mant :=
      if D < 2 * rem then quot + 1
      else if 2 * rem = D then (if quot % 2 = 0 then quot else quot + 1)
      else quot
    if 1023 < E ∨ (E = 1023 ∧ mant = 2 ^ 53) then .inf else .finite mant (-s)

/-- Numerator of a finite `double` written as a fraction of naturals. -/
def Dbl.num : Dbl → Nat
  | .finite m e => m * 2 ^ e.toNat
  | .inf => 0

/-- Denominator of a finite `double` written as a fraction of naturals. -/
def Dbl.den : Dbl → Nat
  | .finite _ e => 2 ^ (-e).toNat
  | .inf => 1

/-- The product `x * k` of a `double` and an `int` `k ≥ 0` converted to `double`. -/
def Dbl.mulInt (x : Dbl) (k : Nat) : Dbl :=
  match x with
  | .inf => .inf
  | .finite m e => roundRat (Dbl.num (.finite m e) * k) (Dbl.den (.finite m e))

/-- The quotient `x / k` of a `double` and an `int` `k > 0` converted to `double`. -/
def Dbl.divInt (x : Dbl) (k : Nat) : Dbl :=
  match x with
  | .inf => .inf
  | .finite m e => roundRat (Dbl.num (.finite m e)) (Dbl.den (.finite m e) * k)

/-- The value of a `double` as a rational; `none` for `+inf`. -/
def Dbl.value : Dbl → Option ℚ
  | .finite m e => some ((m : ℚ) * (2 : ℚ) ^ e)
  | .inf => none

/-- Whether a `double` is exactly the natural number `n`. -/
def Dbl.isNat (x : Dbl) (n : Nat) : Bool :=
  match x with
  | .finite m e => decide (m * 2 ^ e.toNat = n * 2 ^ (-e).toNat)
  | .inf => false

/-- The accumulator `result` of `pascal(row, col)` after `i` iterations of
`result = result * (row - i + 1) / i`, in binary64 arithmetic (the loop runs
only for counter values up to `col ≤ row`, where `row - i + 1 ≥ 1`). -/
def pascalAccDouble (row : Nat) : Nat → Dbl
  | 0 => .finite 1 0
  | i + 1 => ((pascalAccDouble row i).mulInt (row - (i + 1) + 1)).divInt (i + 1)

/-- Whether row `row` is computed without rounding in binary64: for every
`i ≤ row` the accumulator after `i` iterations is the natural number
`row (row - 1) ... (row - i + 1) / i!`, and the dividend
`result * (row - (i + 1) + 1)` of the next iteration is exactly its product
with `row - (i + 1) + 1`. -/
def pascalRowExact (row : Nat) : Bool :=
  decide (∀ i < row + 1,
    ((pascalAccDouble row i).isNat (row.descFactorial i / i.factorial) &&
      ((pascalAccDouble row i).mulInt (row - (i + 1) + 1)).isNat
        ((row - (i + 1) + 1) * (row.descFactorial i / i.factorial))) = true)

/-! ## Stack operations -/

/-- `RPNCalculator::push`. -/
def push (value : ℚ) : M Unit := fun c =>
  .ok () { c with stack := value :: c.stack }

/-- `RPNCalculator::pop`. -/
def pop : M ℚ := fun c =>
  match c.stack with
  | [] => .throw .stackEmpty c
  | value :: rest => .ok value { c with stack := rest }

/-- `RPNCalculator::peek`. -/
def peek : M ℚ := fun c =>
  match c.stack with
  | [] => .throw .stackEmpty c
  | value :: _ => .ok value c

/-- The `while (!stack.empty()) stack.pop();` loop of `clear`. -/
def clearLoop : List ℚ → List ℚ
  | [] => []
  | _ :: rest => clearLoop rest

/-- `RPNCalculator::clear`. -/
def clear : M Unit := fun c =>
  .ok () { c with stack := clearLoop c.stack }

/-- `RPNCalculator::size`. -/
def size : M Nat := fun c => .ok c.stack.length c

/-- The test `stack.empty()`. -/
def stackEmpty : M Bool := fun c => .ok c.stack.isEmpty c

/-! ## Operator dispatch -/

/-- `RPNCalculator::calculate`. -/
def calculate (L : CLib) (operation : String) : M Unit :=
  if operation = "+" then do
    if (← size) < 2 then raise (.needOperands 2 "+")
    let b ← pop
    let a ← pop
    push (a + b)
  else if operation = "-" then do
    if (← size) < 2 then raise (.needOperands 2 "-")
    let b ← pop
    let a ← pop
    push (a - b)
  else if operation = "*" then do
    if (← size) < 2 then raise (.needOperands 2 "*")
    let b ← pop
    let a ← pop
    push (a * b)
  else if operation = "/" then do
    if (← size) < 2 then raise (.needOperands 2 "/")
    let b ← pop
    if b = 0 then raise .divisionByZero
    let a ← pop
    push (a / b)
  else if operation = "sqrt" then do
    if (← stackEmpty) then raise (.needOperands 1 "sqrt")
    let a ← pop
    if a < 0 then raise .negativeSqrt
    push (L.sqrt a)
  else if operation = "^" then do
    if (← size) < 2 then raise (.needOperands 2 "^")
    let b ← pop
    let a ← pop
    push (L.pow a b)
  else if operation = "sin" then do
    if (← stackEmpty) then raise (.needOperands 1 "sin")
    let a ← pop
    push (L.sin (a * L.M_PI / 180))
  else if operation = "cos" then do
    if (← stackEmpty) then raise (.needOperands 1 "cos")
    let a ← pop
    push (L.cos (a * L.M_PI / 180))
  else if operation = "tan" then do
    if (← stackEmpty) then raise (.needOperands 1 "tan")
    let a ← pop
    let rad := a * L.M_PI / 180
    if L.cos rad = 0 then raise .tangentUndefined
    push (L.tan rad)
  else if operation = "fib" then do
    if (← stackEmpty) then raise (.needOperands 1 "fib")
    let n ← pop
    if n ≠ ((← staticCastInt n) : ℚ) ∨ n < 0 then raise .fibArgument
    push (← fibonacci (← staticCastInt n))
  else if operation = "pascal" then do
    if (← size) < 2 then raise (.needOperands 2 "pascal")
    let col ← pop
    let row ← pop
    if row ≠ ((← staticCastInt row) : ℚ) then raise .pascalNotInteger
    if col ≠ ((← staticCastInt col) : ℚ) then raise .pascalNotInteger
    push (← pascal (← staticCastInt row) (← staticCastInt col))
  else raise (.unknownOperator operation)

/-! ## Expression processing -/

/-- Value of a decimal digit character. -/
def digitValue (ch : Char) : Nat := ch.toNat - 48

/-- Value of a run of decimal digits, most significant first. -/
def digitsValue (ds : List Char) : Nat :=
  ds.foldl (fun acc ch => acc * 10 + digitValue ch) 0

/-- The standard function `std::stod` on a token, decimal syntax only: an
optional sign, a run of digits, optionally a `.` and a second run of digits;
the longest such prefix is converted and trailing characters are ignored.
When neither run holds a digit no conversion can be performed and
`std::invalid_argument` is thrown.  Exponents, hexadecimal, `inf` and `nan`
are left out: they need a letter, which `isNumber` rejects before `stod` is
called.  The value is the exact decimal: the rounding to the nearest `double`
and the `std::out_of_range` exception for a value beyond the `double` range
are not modelled. -/
def stod (str : String) : M ℚ := fun c =>
  let signed : Bool × List Char :=
    match str.data with
    | '-' :: r => (true, r)
    | '+' :: r => (false, r)
    | r => (false, r)
  let intPart := signed.2.takeWhile Char.isDigit
  let fracPart : List Char :=
    match signed.2.dropWhile Char.isDigit with
    | '.' :: r => r.takeWhile Char.isDigit
    | _ => []
  if intPart.isEmpty && fracPart.isEmpty then .throw .stodInvalidArgument c
  else
    let v : ℚ := (digitsValue intPart : ℚ) + (digitsValue fracPart : ℚ) / (10 : ℚ) ^ fracPart.length
    .ok (if signed.1 then -v else v) c

/-- Whitespace in the classic locale, as skipped by `operator>>`. -/
def isspace (ch : Char) : Bool :=
  ch = ' ' || ch = '\t' || ch = '\n' || ch = Char.ofNat 11 || ch = Char.ofNat 12 || ch = '\r'

/-- The `while (iss >> token)` loop: `cur` is the token being read, reversed. -/
def splitTokens : List Char → List Char → List String
  | [], cur => if cur.isEmpty then [] else [String.mk cur.reverse]
  | ch :: rest, cur =>
    if isspace ch then
      if cur.isEmpty then splitTokens rest []
      else String.mk cur.reverse :: splitTokens rest []
    else splitTokens rest (ch :: cur)

/-- The tokens of an expression, in order. -/
def tokenize (expression : String) : List String :=
  splitTokens expression.data []

/-- The `for (const auto& t : tokens)` loop of `processExpression`. -/
def processTokens (L : CLib) : List String → M Unit
  | [] => pure ()
  | t :: rest => do
    if isNumber t then
      push (← stod t)
    else if isOperator t then
      calculate L t
    else
      raise (.invalidToken t)
    processTokens L rest

/-- `RPNCalculator::processExpression`. -/
def processExpression (L : CLib) (expression : String) : M ℚ := do
  processTokens L (tokenize expression)
  if (← size) ≠ 1 then raise .incompleteExpression
  let result ← pop
  (fun c => .ok () { c with history := c.history ++ [expression ++ " = " ++ L.to_string result] })
  return result

/-! ## Batch calculation -/

/-- A `try { ... } catch (const std::exception& e) { ... }` statement: the
handler runs on the calculator as the throwing code left it. -/
def tryCatch {α : Type} (body : M α) (handler : RPNError → M α) : M α := fun c =>
  match body c with
  | .ok a c1 => .ok a c1
  | .throw e c1 => handler e c1
  | .undefined => .undefined

/-- A line printed by `batchCalculation` for one expression: its 1-based index
with either the expression and its result, or the message of the exception. -/
inductive BatchLine where
  | result (index : Nat) (expression : String) (value : ℚ)
  | error (index : Nat) (e : RPNError)
  deriving DecidableEq

/-- The `for (size_t i = 0; i < expressions.size(); i++)` loop of
`batchCalculation`, entered at index `i` with the expressions from `i` on;
it returns the lines printed. -/
def batchLoop (L : CLib) : List String → Nat → M (List BatchLine)
  | [], _ => pure []
  | expression :: rest, i => do
    let line ← tryCatch
      (do
        clear
        let result ← processExpression L expression
        pure (BatchLine.result (i + 1) expression result))
      (fun e => pure (BatchLine.error (i + 1) e))
    let lines ← batchLoop L rest (i + 1)
    pure (line :: lines)

/-- The function `batchCalculation(calc, expressions)`. -/
def batchCalculation (L : CLib) (expressions : List String) : M (List BatchLine) :=
  batchLoop L expressions 0

/-! ## Vocabulary of the specification -/

/-- A sample instance of the library parameter, used where a statement is
evaluated at a concrete input; no result depends on the values it returns. -/
def sampleLib : CLib where
  sqrt := fun x => (Nat.sqrt (x.num.toNat * x.den) : ℚ) / (x.den : ℚ)
  pow := fun a b => if b.den = 1 then a ^ b.num else 1
  sin := fun x => x - x ^ 3 / 6
  cos := fun x => 1 - x ^ 2 / 2
  tan := fun x => x + x ^ 3 / 3
  M_PI := 355 / 113
  to_string := fun x => toString x.num ++ "/" ++ toString x.den

/-- What a caller observes of a call: the returned value or the exception;
`none` when the behaviour is undefined. -/
def Outcome.answer {α : Type} : Outcome α → Option (RPNError ⊕ α)
  | .ok value _ => some (.inr value)
  | .throw e _ => some (.inl e)
  | .undefined => none

/-- One or more characters, each a decimal digit or `.`, at most one `.`. -/
def DigitsAndDot (cs : List Char) : Prop :=
  cs ≠ [] ∧ (∀ ch ∈ cs, ch.isDigit = true ∨ ch = '.') ∧ cs.count '.' ≤ 1

/-- The shape of a Number token in the specification: an optional leading `-`
followed by `DigitsAndDot`. -/
def NumberShape (cs : List Char) : Prop :=
  DigitsAndDot cs ∨ (cs.head? = some '-' ∧ DigitsAndDot cs.tail)

/-- The eleven operator names. -/
def operators : List String :=
  ["+", "-", "*", "/", "sqrt", "^", "sin", "cos", "tan", "fib", "pascal"]

/-- Arity of an operator in the specification's table. -/
def arity (op : String) : Nat :=
  if op = "+" ∨ op = "-" ∨ op = "*" ∨ op = "/" ∨ op = "^" ∨ op = "pascal" then 2 else 1

/-- The mathematical operation `a OP b` of the four arithmetic operators. -/
def arith (op : String) (a b : ℚ) : ℚ :=
  if op = "+" then a + b
  else if op = "-" then a - b
  else if op = "*" then a * b
  else a / b

/-- The Fibonacci numbers: `F 0 = 0`, `F 1 = 1`, `F (k+2) = F (k+1) + F k`. -/
def fibSpec : Nat → Nat
  | 0 => 0
  | 1 => 1
  | k + 2 => fibSpec (k + 1) + fibSpec k

/-- Two outcomes agree when they return the same value or raise the same
exception and leave the same stack (the histories may differ). -/
def Outcome.agree {α : Type} : Outcome α → Outcome α → Prop
  | .ok a c, .ok b d => a = b ∧ c.stack = d.stack
  | .throw e c, .throw f d => e = f ∧ c.stack = d.stack
  | .undefined, .undefined => True
  | _, _ => False

/-- A member function that reads nothing but the stack: started on calculators
with the same stack its outcomes agree. -/
def StackOnly {α : Type} (m : M α) : Prop :=
  ∀ c d : RPNCalculator, c.stack = d.stack → (m c).agree (m d)

/-- A member function that leaves the history alone and never raises the
unknown-operator error. -/
def Tame {α : Type} (m : M α) : Prop :=
  ∀ c : RPNCalculator,
    match m c with
    | .ok _ c1 => c1.history = c.history
    | .throw e c1 => c1.history = c.history ∧ ∀ s : String, e ≠ .unknownOperator s
    | .undefined => True

/-- The body of the token loop of `processExpression` for one token. -/
def tokenStep (L : CLib) (t : String) : M Unit :=
  if isNumber t then stod t >>= push
  else if isOperator t then calculate L t
  else raise (.invalidToken t)

/-- The answer of `processExpression` for an expression evaluated alone on an
empty stack (and an empty history). -/
def soloAnswer (L : CLib) (expression : String) : Option (RPNError ⊕ ℚ) :=
  (processExpression L expression ⟨[], []⟩).answer

/-- The line reporting a given answer for the expression at 0-based position `i`. -/
def reportOf (i : Nat) (expression : String) : RPNError ⊕ ℚ → BatchLine
  | .inl e => .error (i + 1) e
  | .inr v => .result (i + 1) expression v

/-- The lines a batch should print from position `i` on: for each expression
the report of its answer when evaluated alone; `none` when some expression
has no answer (its evaluation has undefined behaviour). -/
def soloLines (L : CLib) : List String → Nat → Option (List BatchLine)
  | [], _ => some []
  | expression :: rest, i =>
    match soloAnswer L expression, soloLines L rest (i + 1) with
    | some r, some lines => some (reportOf i expression r :: lines)
    | _, _ => none

/-- The six operators of arity 2. -/
def isBinaryOperator (t : String) : Bool :=
  t = "+" || t = "-" || t = "*" || t = "/" || t = "^" || t = "pascal"

/-- The five operators of arity 1. -/
def isUnaryOperator (t : String) : Bool :=
  t = "sqrt" || t = "sin" || t = "cos" || t = "tan" || t = "fib"

/-- Number of number tokens in a token sequence. -/
def numberCount (tokens : List String) : Nat := tokens.countP isNumber

/-- Number of binary-operator tokens in a token sequence. -/
def binaryCount (tokens : List String) : Nat := tokens.countP isBinaryOperator

/-- A member function that, when it returns normally, leaves the calculator
as it found it. -/
def Keeps {α : Type} (m : M α) : Prop :=
  ∀ (c : RPNCalculator) (v : α) (c1 : RPNCalculator), m c = .ok v c1 → c1 = c

/-- A member function that, when it returns normally, has changed the stack
size by exactly `d`. -/
def Shift (d : Int) {α : Type} (m : M α) : Prop :=
  ∀ (c : RPNCalculator) (v : α) (c1 : RPNCalculator), m c = .ok v c1 →
    (c1.stack.length : Int) = (c.stack.length : Int) + d

/-- The history entry recorded for a successful evaluation. -/
def historyEntry (L : CLib) (expression : String) (result : ℚ) : String :=
  expression ++ " = " ++ L.to_string result

/-! ## Basic facts about the embedding -/

@[simp] theorem bind_apply {α β : Type} (m : M α) (f : α → M β) (c : RPNCalculator) :
    (m >>= f) c = match m c with
      | .ok a c1 => f a c1
      | .throw e c1 => .throw e c1
      | .undefined => .undefined := rfl

@[simp] theorem pure_apply {α : Type} (a : α) (c : RPNCalculator) :
    (pure a : M α) c = .ok a c := rfl

theorem clearLoop_eq_nil (s : List ℚ) : clearLoop s = [] := by
  induction s with
  | nil => rfl
  | cons _ rest ih => simpa [clearLoop] using ih

/-! ## Number tokens -/

theorem isNumberLoop_iff (cs : List Char) (hasDecimal : Bool) :
    isNumberLoop cs hasDecimal = true ↔
      (∀ ch ∈ cs, ch.isDigit = true ∨ ch = '.') ∧
        cs.count '.' + (if hasDecimal then 1 else 0) ≤ 1 := by
  induction cs generalizing hasDecimal with
  | nil => cases hasDecimal <;> simp [isNumberLoop]
  | cons ch rest ih =>
    by_cases hdot : ch = '.'
    · subst hdot
      cases hasDecimal
      · simp [isNumberLoop, ih]
      · simp [isNumberLoop]
    · have hne : ¬ ('.' = ch) := fun h => hdot h.symm
      cases hdig : ch.isDigit
      · simp [isNumberLoop, hdot, hdig]
      · simp [isNumberLoop, hdot, hdig, ih, List.count_cons, hne]

theorem isNumber_iff (str : String) : isNumber str = true ↔ NumberShape str.data := by
  unfold isNumber NumberShape DigitsAndDot
  cases hd : str.data with
  | nil => simp
  | cons ch rest =>
    by_cases hminus : ch = '-'
    · subst hminus
      cases rest with
      | nil => simp
      | cons ch2 rest2 =>
        have := isNumberLoop_iff (ch2 :: rest2) false
        simp at this
        simp [this]
    · have := isNumberLoop_iff (ch :: rest) false
      simp at this
      simp [hminus, this]

/-- C3: `isNumber` accepts exactly the strings made of an optional leading `-`
followed by one or more characters that are digits or `.`, with at most one
`.`; it rejects "", "-", ".." and "1.2.3", every string holding an exponent
letter and every string holding a `-` after the first position. -/
theorem isNumber_spec :
    (∀ str : String, isNumber str = true ↔ NumberShape str.data) ∧
    isNumber "" = false ∧ isNumber "-" = false ∧ isNumber ".." = false ∧
    isNumber "1.2.3" = false ∧
    (∀ str : String, ('e' ∈ str.data ∨ 'E' ∈ str.data) → isNumber str = false) ∧
    (∀ str : String, '-' ∈ str.data.tail → isNumber str = false) := by
  refine ⟨isNumber_iff, by decide, by decide, by decide, by decide, ?_, ?_⟩
  · intro str hmem
    rw [Bool.eq_false_iff]
    intro hacc
    have hshape := (isNumber_iff str).1 hacc
    have key : ∀ ch : Char, (ch = 'e' ∨ ch = 'E') → ch ∈ str.data → False := by
      intro ch hch hin
      have hnd : ¬ (ch.isDigit = true ∨ ch = '.') := by
        rcases hch with h | h <;> subst h <;> decide
      have hnm : ch ≠ '-' := by
        rcases hch with h | h <;> subst h <;> decide
      rcases hshape with ⟨_, hall, _⟩ | ⟨hhead, _, hall, _⟩
      · exact hnd (hall ch hin)
      · cases hd : str.data with
        | nil => rw [hd] at hin; simp at hin
        | cons c0 rest =>
          rw [hd] at hin hhead hall
          simp at hhead hall
          rcases List.mem_cons.1 hin with h | h
          · exact hnm (h.trans hhead)
          · exact hnd (hall ch h)
    rcases hmem with h | h
    · exact key 'e' (Or.inl rfl) h
    · exact key 'E' (Or.inr rfl) h
  · intro str hmem
    rw [Bool.eq_false_iff]
    intro hacc
    have hnd : ¬ (('-' : Char).isDigit = true ∨ '-' = '.') := by decide
    rcases (isNumber_iff str).1 hacc with ⟨_, hall, _⟩ | ⟨_, _, hall, _⟩
    · exact hnd (hall '-' (List.mem_of_mem_tail hmem))
    · exact hnd (hall '-' hmem)

/-- C2 (failing input): `isNumber` accepts the tokens "." and "-.", which hold
no digit; `std::stod` cannot convert them, so `processExpression` on "."
ends with the `std::invalid_argument` exception of `stod`. -/
theorem isNumber_accepts_dot_stod_throws :
    isNumber "." = true ∧ isNumber "-." = true ∧
    (∀ c : RPNCalculator, stod "." c = .throw .stodInvalidArgument c) ∧
    (∀ c : RPNCalculator, stod "-." c = .throw .stodInvalidArgument c) ∧
    (∀ (L : CLib) (c : RPNCalculator),
      processExpression L "." c = .throw .stodInvalidArgument c) := by
  refine ⟨by decide, by decide, ?_, ?_, ?_⟩
  · intro c; simp [stod]
  · intro c; simp [stod]
  · intro L c
    simp [processExpression, tokenize, splitTokens, isspace, processTokens, isNumber,
      isNumberLoop, stod]

theorem digits_found (body : List Char)
    (hall : ∀ ch ∈ body, ch.isDigit = true ∨ ch = '.') (hcount : body.count '.' ≤ 1)
    (hdigit : ∃ ch ∈ body, ch.isDigit = true) :
    body.takeWhile Char.isDigit ≠ [] ∨
      ∃ r, body.dropWhile Char.isDigit = '.' :: r ∧ r.takeWhile Char.isDigit ≠ [] := by
  cases body with
  | nil => simp at hdigit
  | cons ch rest =>
    cases hd : ch.isDigit
    · right
      have hdot : ch = '.' := by
        rcases hall ch (List.mem_cons_self _ _) with h | h
        · rw [hd] at h; cases h
        · exact h
      subst hdot
      refine ⟨rest, by simp [List.dropWhile, hd], ?_⟩
      have hnodot : '.' ∉ rest := by
        intro hmem
        have := List.count_pos_iff.2 hmem
        simp at hcount
        omega
      have hrest : ∀ x ∈ rest, x.isDigit = true := by
        intro x hx
        rcases hall x (List.mem_cons_of_mem _ hx) with h | h
        · exact h
        · exact absurd (h ▸ hx) hnodot
      obtain ⟨x, hx, hxd⟩ := hdigit
      rcases List.mem_cons.1 hx with h | h
      · rw [h, hd] at hxd; cases hxd
      · cases rest with
        | nil => simp at h
        | cons y ys =>
          have := hrest y (List.mem_cons_self _ _)
          simp [List.takeWhile, this]
    · left
      simp [List.takeWhile, hd]

/-- Outside the digit-free tokens the conversion is safe: a token accepted by
`isNumber` that holds at least one digit is converted by `stod` without an
exception. -/
theorem stod_ok_of_digit (str : String) (hacc : isNumber str = true)
    (hdigit : ∃ ch ∈ str.data, ch.isDigit = true) (c : RPNCalculator) :
    ∃ v : ℚ, stod str c = .ok v c := by
  have hshape := (isNumber_iff str).1 hacc
  have hfinish : ∀ (body : List Char),
      (∀ ch ∈ body, ch.isDigit = true ∨ ch = '.') → body.count '.' ≤ 1 →
      (∃ ch ∈ body, ch.isDigit = true) →
      ((body.takeWhile Char.isDigit).isEmpty &&
        (match body.dropWhile Char.isDigit with
          | '.' :: r => r.takeWhile Char.isDigit
          | _ => []).isEmpty) = false := by
    intro body hall hcount hdig
    rcases digits_found body hall hcount hdig with h | ⟨r, hr, h⟩
    · cases hb : body.takeWhile Char.isDigit with
      | nil => exact absurd hb h
      | cons _ _ => simp
    · rw [hr]
      show (_ && (List.takeWhile Char.isDigit r).isEmpty) = false
      cases hb : r.takeWhile Char.isDigit with
      | nil => exact absurd hb h
      | cons _ _ => simp
  unfold stod
  rcases hshape with ⟨hne, hall, hcount⟩ | ⟨hhead, _, hall, hcount⟩
  · cases hd : str.data with
    | nil => exact absurd hd hne
    | cons ch rest =>
      rw [hd] at hall hcount hdigit
      have hm : ch ≠ '-' := by
        intro h; subst h
        rcases hall '-' (List.mem_cons_self _ _) with h | h <;> revert h <;> decide
      have hp : ch ≠ '+' := by
        intro h; subst h
        rcases hall '+' (List.mem_cons_self _ _) with h | h <;> revert h <;> decide
      have hfin := hfinish (ch :: rest) hall hcount hdigit
      split
      · rename_i heq; simp at heq; exact absurd heq.1 hm
      · rename_i heq; simp at heq; exact absurd heq.1 hp
      · simp only [hfin]
        exact ⟨_, rfl⟩
  · cases hd : str.data with
    | nil => rw [hd] at hhead; simp at hhead
    | cons ch rest =>
      rw [hd] at hhead hall hcount hdigit
      simp at hhead
      subst hhead
      simp only [List.tail_cons] at hall hcount
      have hdig2 : ∃ x ∈ rest, x.isDigit = true := by
        obtain ⟨x, hx, hxd⟩ := hdigit
        rcases List.mem_cons.1 hx with h | h
        · subst h; exact absurd hxd (by decide)
        · exact ⟨x, h, hxd⟩
      have hfin := hfinish rest hall hcount hdig2
      simp only [hfin]
      exact ⟨_, rfl⟩

/-! ## Arity checks and arithmetic operators -/

/-- C4: for each of the eleven operators, on a stack holding fewer values than
the operator's arity `calculate` throws the operand-count error of that
operator and leaves the calculator exactly as it was. -/
theorem calculate_underflow (L : CLib) (op : String) (c : RPNCalculator)
    (hop : op ∈ operators) (hlen : c.stack.length < arity op) :
    calculate L op c = .throw (.needOperands (arity op) op) c := by
  obtain ⟨stack, history⟩ := c
  simp only [operators, List.mem_cons, List.mem_singleton, List.not_mem_nil, or_false] at hop
  rcases hop with h | h | h | h | h | h | h | h | h | h | h <;> subst h <;>
    simp [arity] at hlen <;>
    first
    | (subst hlen; simp [calculate, arity, stackEmpty, raise])
    | simp [calculate, arity, size, raise, hlen]

/-- C4 at a concrete input: "+" on the empty stack. -/
theorem calculate_underflow_witness :
    calculate sampleLib "+" ⟨[], []⟩ = .throw (.needOperands 2 "+") ⟨[], []⟩ :=
  calculate_underflow sampleLib "+" ⟨[], []⟩ (by decide) (by decide)

/-- C5: on a stack `rest`, `a`, `b` (`b` on top) each of `+`, `-`, `*`, and `/`
when `b ≠ 0`, succeeds and leaves `rest` followed by the single value
`a OP b`; the history is untouched. -/
theorem calculate_arith (L : CLib) (op : String) (a b : ℚ) (rest : List ℚ)
    (history : List String) (hop : op ∈ ["+", "-", "*", "/"])
    (hdiv : op = "/" → b ≠ 0) :
    calculate L op ⟨b :: a :: rest, history⟩ = .ok () ⟨arith op a b :: rest, history⟩ := by
  have hsize : ¬ (rest.length + 1 + 1 < 2) := by omega
  simp only [List.mem_cons, List.mem_singleton, List.not_mem_nil, or_false] at hop
  rcases hop with h | h | h | h <;> subst h
  · simp [calculate, arith, size, pop, push, hsize]
  · simp [calculate, arith, size, pop, push, hsize]
  · simp [calculate, arith, size, pop, push, hsize]
  · have hb : b ≠ 0 := hdiv rfl
    simp [calculate, arith, size, pop, push, hsize, hb]

/-- C5 at a concrete input: "7 2 -" is 7 - 2 = 5, not 2 - 7. -/
theorem calculate_arith_witness :
    calculate sampleLib "-" ⟨[2, 7, 1], []⟩ = .ok () ⟨[arith "-" 7 2, 1], []⟩ ∧
    arith "-" 7 2 = 5 :=
  ⟨calculate_arith sampleLib "-" 7 2 [1] [] (by decide) (by decide), by
    have hne : ¬ ("-" = "+") := by decide
    simp only [arith, hne, if_false, if_true]
    norm_num⟩

/-- C6: on a stack of at least two values with 0 on top, `calculate("/")`
throws the division-by-zero error and pushes nothing: the stack left behind
is the old stack without its top, so it is shorter and holds only values that
were on it before.  `processExpression("4 0 /")` on an empty stack fails with
the division-by-zero error. -/
theorem calculate_div_zero (L : CLib) :
    (∀ c : RPNCalculator, 2 ≤ c.stack.length → c.stack.head? = some 0 →
      ∃ c1 : RPNCalculator, calculate L "/" c = .throw .divisionByZero c1 ∧
        c1.stack = c.stack.tail ∧ c1.history = c.history ∧
        c1.stack.length < c.stack.length ∧ ∀ v ∈ c1.stack, v ∈ c.stack) ∧
    (∀ history : List String,
      (processExpression L "4 0 /" ⟨[], history⟩).answer = some (.inl .divisionByZero)) := by
  constructor
  · rintro ⟨stack, history⟩ hlen htop
    match stack, hlen, htop with
    | b :: a :: rest, _, htop =>
      simp at htop
      subst htop
      refine ⟨⟨a :: rest, history⟩, ?_, rfl, rfl, by simp, ?_⟩
      · have hsize : ¬ (rest.length + 1 + 1 < 2) := by omega
        simp [calculate, size, pop, raise, hsize]
      · intro v hv
        exact List.mem_cons_of_mem _ hv
  · intro history
    simp [processExpression, tokenize, splitTokens, isspace, processTokens, isNumber,
      isNumberLoop, isOperator, stod, digitsValue, digitValue, calculate, size, pop, push,
      raise, Outcome.answer]

/-- C6 at a concrete input: "/" on the stack 4, 0 (0 on top) fails with the
division-by-zero error and leaves only the 4. -/
theorem calculate_div_zero_witness :
    ∃ c1 : RPNCalculator, calculate sampleLib "/" ⟨[0, 4], []⟩ = .throw .divisionByZero c1 ∧
      c1.stack = [4] ∧ c1.history = [] ∧ c1.stack.length < 2 ∧ ∀ v ∈ c1.stack, v ∈ [0, (4 : ℚ)] :=
  (calculate_div_zero sampleLib).1 ⟨[0, 4], []⟩ (by decide) (by simp)

/-! ## Fibonacci -/

theorem fibonacciLoop_spec (n : Int) (hn : n < INT_MAX) (c : RPNCalculator) :
    ∀ (k j : Nat), ((j : Int) + 2) + k = n + 1 →
      fibonacciLoop n ((j : Int) + 2) (fibSpec j) (fibSpec (j + 1)) c =
        .ok (fibSpec n.toNat : ℚ) c := by
  intro k
  induction k with
  | zero =>
    intro j hj
    rw [fibonacciLoop]
    have hgt : ¬ ((j : Int) + 2 ≤ n) := by omega
    have hidx : n.toNat = j + 1 := by omega
    simp [hgt, hidx]
  | succ k ih =>
    intro j hj
    rw [fibonacciLoop]
    have hle : (j : Int) + 2 ≤ n := by omega
    have hlt : (j : Int) + 2 < INT_MAX := by omega
    have hnext := ih (j + 1) (by push_cast; omega)
    have hstep : (fibSpec j : ℚ) + (fibSpec (j + 1) : ℚ) = (fibSpec (j + 1 + 1) : ℚ) := by
      simp [fibSpec]; ring
    simp only [hle, hlt, dite_true, if_true]
    rw [hstep]
    have hcast : ((j : Int) + 2 + 1) = ((j + 1 : Nat) : Int) + 2 := by push_cast; ring
    rw [hcast]
    exact hnext

theorem fibonacciLoop_overflow (c : RPNCalculator) :
    ∀ (k : Nat) (i : Int) (a b : ℚ), i + k = INT_MAX →
      fibonacciLoop INT_MAX i a b c = .undefined := by
  intro k
  induction k with
  | zero =>
    intro i a b hi
    rw [fibonacciLoop]
    have hle : i ≤ INT_MAX := by omega
    have hlt : ¬ (i < INT_MAX) := by omega
    simp [hle, hlt]
  | succ k ih =>
    intro i a b hi
    rw [fibonacciLoop]
    have hle : i ≤ INT_MAX := by omega
    have hlt : i < INT_MAX := by omega
    simp only [hle, hlt, dite_true, if_true]
    exact ih (i + 1) b (a + b) (by push_cast at hi ⊢; omega)

/-- C8 (failing input): `fibonacci(2147483647)`.  The loop `for (int i = 2;
i <= n; i++)` cannot leave through its condition when `n = INT_MAX`; the
counter is incremented past `INT_MAX` and the call returns no Fibonacci
number. -/
theorem fibonacci_int_max_undefined :
    ∀ c : RPNCalculator, fibonacci 2147483647 c = .undefined := by
  intro c
  have h := fibonacciLoop_overflow c 2147483645 2 0 1 (by simp [INT_MAX])
  simpa [fibonacci, INT_MAX] using h

/-- Below `INT_MAX` the function is right: for every `int` `n` with
`0 ≤ n < INT_MAX`, `fibonacci(n)` returns the `n`-th Fibonacci number (exact
arithmetic) and leaves the calculator unchanged. -/
theorem fibonacci_spec (n : Int) (h0 : 0 ≤ n) (hmax : n < INT_MAX) (c : RPNCalculator) :
    fibonacci n c = .ok (fibSpec n.toNat : ℚ) c := by
  unfold fibonacci
  have hneg : ¬ (n < 0) := by omega
  by_cases hz : n = 0
  · subst hz; simp [raise, fibSpec]
  by_cases ho : n = 1
  · subst ho; simp [raise, fibSpec]
  simp only [hneg, hz, ho, if_false]
  have h := fibonacciLoop_spec n hmax c (n - 1).toNat 0 (by omega)
  simpa [fibSpec] using h

/-- Concrete values: `fibonacci(0) = 0`, `fibonacci(1) = 1`, `fibonacci(5) = 5`. -/
theorem fibonacci_values :
    fibonacci 0 ⟨[], []⟩ = .ok 0 ⟨[], []⟩ ∧ fibonacci 1 ⟨[], []⟩ = .ok 1 ⟨[], []⟩ ∧
    fibonacci 5 ⟨[], []⟩ = .ok 5 ⟨[], []⟩ := by
  refine ⟨?_, ?_, ?_⟩
  · simpa [fibSpec] using fibonacci_spec 0 (by decide) (by decide) ⟨[], []⟩
  · simpa [fibSpec] using fibonacci_spec 1 (by decide) (by decide) ⟨[], []⟩
  · simpa [fibSpec] using fibonacci_spec 5 (by decide) (by decide) ⟨[], []⟩

/-! ## Pascal -/

theorem choose_step (r j : Nat) :
    (Nat.choose r j : ℚ) * (((r : Int) - ((j : Int) + 1) + 1 : Int) : ℚ) / (((j : Int) + 1 : Int) : ℚ)
      = (Nat.choose r (j + 1) : ℚ) ∨ r < j := by
  by_cases hlt : r < j
  · exact Or.inr hlt
  · left
    have hle : j ≤ r := by omega
    have hnat : Nat.choose r (j + 1) * (j + 1) = Nat.choose r j * (r - j) :=
      Nat.choose_succ_right_eq r j
    have hq : (Nat.choose r (j + 1) : ℚ) * ((j : ℚ) + 1) = (Nat.choose r j : ℚ) * ((r : ℚ) - (j : ℚ)) := by
      have := congrArg (fun x : Nat => (x : ℚ)) hnat
      simp only [Nat.cast_mul, Nat.cast_add, Nat.cast_one] at this
      rw [this, Nat.cast_sub hle]
    have hpos : ((j : ℚ) + 1) ≠ 0 := by positivity
    push_cast
    rw [div_eq_iff hpos, hq]
    ring

theorem pascalLoop_spec (r m : Nat) (hmr : m ≤ r) (hr : (r : Int) ≤ INT_MAX)
    (hm : (m : Int) < INT_MAX) (c : RPNCalculator) :
    ∀ (k j : Nat), j + k = m →
      pascalLoop r m ((j : Int) + 1) (Nat.choose r j) c = .ok (Nat.choose r m : ℚ) c := by
  intro k
  induction k with
  | zero =>
    intro j hj
    rw [pascalLoop]
    have hgt : ¬ ((j : Int) + 1 ≤ m) := by omega
    have hjm : j = m := by omega
    simp [hgt, hjm]
  | succ k ih =>
    intro j hj
    rw [pascalLoop]
    have hle : (j : Int) + 1 ≤ m := by omega
    have hrange : INT_MIN ≤ (r : Int) - ((j : Int) + 1) ∧ (r : Int) - ((j : Int) + 1) ≤ INT_MAX ∧
        (r : Int) - ((j : Int) + 1) + 1 ≤ INT_MAX := by
      simp only [INT_MIN, INT_MAX] at *
      omega
    have hlt : (j : Int) + 1 < INT_MAX := by omega
    have hnext := ih (j + 1) (by omega)
    have hstep := (choose_step r j).resolve_right (by omega)
    simp only [hle, hrange, hlt, dite_true, if_true, and_self]
    rw [hstep]
    have hcast : ((j : Int) + 1 + 1) = ((j + 1 : Nat) : Int) + 1 := by push_cast; ring
    rw [hcast]
    exact hnext

theorem pascalLoop_overflow (c : RPNCalculator) :
    ∀ (k : Nat) (i : Int) (result : ℚ), 1 ≤ i → i + k = INT_MAX →
      pascalLoop INT_MAX INT_MAX i result c = .undefined := by
  intro k
  induction k with
  | zero =>
    intro i result h1 hi
    rw [pascalLoop]
    have hle : i ≤ INT_MAX := by omega
    have hlt : ¬ (i < INT_MAX) := by omega
    simp [hle, hlt]
  | succ k ih =>
    intro i result h1 hi
    rw [pascalLoop]
    have hle : i ≤ INT_MAX := by omega
    have hlt : i < INT_MAX := by omega
    have hrange : INT_MIN ≤ INT_MAX - i ∧ INT_MAX - i ≤ INT_MAX ∧ INT_MAX - i + 1 ≤ INT_MAX := by
      simp only [INT_MIN, INT_MAX] at *
      omega
    simp only [hle, hlt, hrange, dite_true, if_true, and_self]
    exact ih (i + 1) _ (by omega) (by push_cast at hi ⊢; omega)

/-- C7 (failing input): `pascal(2147483647, 2147483647)`.  The loop
`for (int i = 1; i <= col; i++)` cannot leave through its condition when
`col = INT_MAX`; the counter is incremented past `INT_MAX` and the call does
not return `C(row, col) = 1`. -/
theorem pascal_int_max_undefined :
    ∀ c : RPNCalculator, pascal 2147483647 2147483647 c = .undefined := by
  intro c
  have h := pascalLoop_overflow c 2147483646 1 1 (by decide) (by simp [INT_MAX])
  simpa [pascal, INT_MAX] using h

/-- Below `INT_MAX` the function is right: for all `int` values `row`, `col`
with `0 ≤ col ≤ row` and `col < INT_MAX`, `pascal(row, col)` returns the
binomial coefficient `C(row, col)` (exact arithmetic) and leaves the
calculator unchanged. -/
theorem pascal_spec (row col : Int) (h0 : 0 ≤ col) (hcr : col ≤ row) (hrow : row ≤ INT_MAX)
    (hcol : col < INT_MAX) (c : RPNCalculator) :
    pascal row col c = .ok (Nat.choose row.toNat col.toNat : ℚ) c := by
  unfold pascal
  have hguard : ¬ (row < 0 ∨ col < 0 ∨ col > row) := by omega
  simp only [hguard, if_false]
  have hr : ((row.toNat : Nat) : Int) = row := Int.toNat_of_nonneg (by omega)
  have hm : ((col.toNat : Nat) : Int) = col := Int.toNat_of_nonneg h0
  have h := pascalLoop_spec row.toNat col.toNat (by omega) (by omega) (by omega) c
    col.toNat 0 (by omega)
  simpa [hr, hm] using h

/-- Concrete values: `pascal(4, 2) = 6`, `pascal(7, 0) = 1`, `pascal(7, 7) = 1`. -/
theorem pascal_values :
    pascal 4 2 ⟨[], []⟩ = .ok 6 ⟨[], []⟩ ∧ pascal 7 0 ⟨[], []⟩ = .ok 1 ⟨[], []⟩ ∧
    pascal 7 7 ⟨[], []⟩ = .ok 1 ⟨[], []⟩ := by
  refine ⟨?_, ?_, ?_⟩
  · simpa [Nat.choose] using
      pascal_spec 4 2 (by decide) (by decide) (by decide) (by decide) ⟨[], []⟩
  · simpa [Nat.choose] using
      pascal_spec 7 0 (by decide) (by decide) (by decide) (by decide) ⟨[], []⟩
  · simpa [Nat.choose] using
      pascal_spec 7 7 (by decide) (by decide) (by decide) (by decide) ⟨[], []⟩

/-! ## Conversion to `int` -/

theorem Outcome.agree.answer_eq {α : Type} {x y : Outcome α} (h : x.agree y) :
    x.answer = y.answer := by
  cases x <;> cases y <;> simp [Outcome.agree] at h <;> simp [Outcome.answer, h]

theorem stackOnly_pure {α : Type} (a : α) : StackOnly (pure a : M α) := by
  intro c d h
  exact ⟨rfl, h⟩

theorem stackOnly_raise {α : Type} (e : RPNError) : StackOnly (raise e : M α) := by
  intro c d h
  exact ⟨rfl, h⟩

theorem stackOnly_bind {α β : Type} {m : M α} {f : α → M β} (hm : StackOnly m)
    (hf : ∀ a, StackOnly (f a)) : StackOnly (m >>= f) := by
  intro c d h
  have h1 := hm c d h
  simp only [bind_apply]
  cases hc : m c <;> cases hd : m d <;> rw [hc, hd] at h1 <;>
    simp [Outcome.agree] at h1 ⊢
  · obtain ⟨rfl, hs⟩ := h1
    exact hf _ _ _ hs
  · exact h1

theorem stackOnly_ite {α : Type} (p : Prop) [Decidable p] {m1 m2 : M α}
    (h1 : StackOnly m1) (h2 : StackOnly m2) : StackOnly (if p then m1 else m2) := by
  split
  · exact h1
  · exact h2

theorem stackOnly_push (v : ℚ) : StackOnly (push v) := by
  intro c d h
  simp [push, Outcome.agree, h]

theorem stackOnly_pop : StackOnly pop := by
  rintro ⟨s, h1⟩ ⟨t, h2⟩ h
  simp at h
  subst h
  cases s <;> simp [pop, Outcome.agree]

theorem stackOnly_size : StackOnly size := by
  intro c d h
  simp [size, Outcome.agree, h]

theorem stackOnly_stackEmpty : StackOnly stackEmpty := by
  intro c d h
  simp [stackEmpty, Outcome.agree, h]

theorem stackOnly_staticCastInt (x : ℚ) : StackOnly (staticCastInt x) := by
  intro c d h
  unfold staticCastInt
  split <;> simp [Outcome.agree, h]

theorem stackOnly_stod (str : String) : StackOnly (stod str) := by
  intro c d h
  unfold stod
  simp only []
  split <;> simp [Outcome.agree, h]

theorem stackOnly_fibonacciLoop (n : Int) :
    ∀ (k : Nat) (i : Int) (a b : ℚ), (n + 1 - i).toNat = k →
      StackOnly (fibonacciLoop n i a b) := by
  intro k
  induction k with
  | zero =>
    intro i a b hk
    rw [fibonacciLoop]
    have hgt : ¬ (i ≤ n) := by omega
    simp only [hgt, dite_false]
    exact stackOnly_pure b
  | succ k ih =>
    intro i a b hk
    rw [fibonacciLoop]
    have hle : i ≤ n := by omega
    simp only [hle, dite_true]
    split
    · exact ih (i + 1) b (a + b) (by omega)
    · intro c d _
      trivial

theorem stackOnly_fibonacci (n : Int) : StackOnly (fibonacci n) := by
  unfold fibonacci
  refine stackOnly_ite _ (stackOnly_raise _) (stackOnly_ite _ (stackOnly_pure _)
    (stackOnly_ite _ (stackOnly_pure _) ?_))
  exact stackOnly_fibonacciLoop n _ 2 0 1 rfl

theorem stackOnly_pascalLoop (row col : Int) :
    ∀ (k : Nat) (i : Int) (result : ℚ), (col + 1 - i).toNat = k →
      StackOnly (pascalLoop row col i result) := by
  intro k
  induction k with
  | zero =>
    intro i result hk
    rw [pascalLoop]
    have hgt : ¬ (i ≤ col) := by omega
    simp only [hgt, dite_false]
    exact stackOnly_pure result
  | succ k ih =>
    intro i result hk
    rw [pascalLoop]
    have hle : i ≤ col := by omega
    simp only [hle, dite_true]
    split
    · split
      · exact ih (i + 1) _ (by omega)
      · intro c d _
        trivial
    · intro c d _
      trivial

theorem stackOnly_pascal (row col : Int) : StackOnly (pascal row col) := by
  unfold pascal
  exact stackOnly_ite _ (stackOnly_raise _) (stackOnly_pascalLoop row col _ 1 1 rfl)

theorem stackOnly_calculate (L : CLib) (operation : String) :
    StackOnly (calculate L operation) := by
  unfold calculate
  repeat' first
    | exact stackOnly_pure _
    | exact stackOnly_raise _
    | exact stackOnly_push _
    | exact stackOnly_pop
    | exact stackOnly_size
    | exact stackOnly_stackEmpty
    | exact stackOnly_staticCastInt _
    | exact stackOnly_fibonacci _
    | exact stackOnly_pascal _ _
    | apply stackOnly_ite
    | apply stackOnly_bind
    | intro _

theorem stackOnly_processTokens (L : CLib) (tokens : List String) :
    StackOnly (processTokens L tokens) := by
  induction tokens with
  | nil => exact stackOnly_pure ()
  | cons t rest ih =>
    unfold processTokens
    dsimp only
    repeat' first
      | exact ih
      | exact stackOnly_raise _
      | exact stackOnly_push _
      | exact stackOnly_stod _
      | exact stackOnly_calculate _ _
      | apply stackOnly_ite
      | apply stackOnly_bind
      | intro _

theorem stackOnly_history_append (entry : String) :
    StackOnly (fun c => Outcome.ok () { c with history := c.history ++ [entry] }) := by
  intro c d h
  exact ⟨rfl, h⟩

theorem stackOnly_processExpression (L : CLib) (expression : String) :
    StackOnly (processExpression L expression) := by
  unfold processExpression
  repeat' first
    | exact stackOnly_processTokens _ _
    | exact stackOnly_pure _
    | exact stackOnly_raise _
    | exact stackOnly_size
    | exact stackOnly_pop
    | exact stackOnly_history_append _
    | apply stackOnly_ite
    | apply stackOnly_bind
    | intro _

/-! ## Stack isolation -/

/-- C1 (counterexample): `processExpression` does not reset the stack.  On a
stack already holding the value 1 the expression "1" fails as incomplete,
while on an empty stack it returns 1. -/
theorem processExpression_not_isolated :
    (processExpression sampleLib "1" ⟨[1], []⟩).answer = some (.inl .incompleteExpression) ∧
    (processExpression sampleLib "1" ⟨[], []⟩).answer = some (.inr 1) := by
  constructor <;>
    simp [processExpression, tokenize, splitTokens, isspace, processTokens, isNumber,
      isNumberLoop, stod, digitsValue, digitValue, size, pop, push, raise, Outcome.answer]

/-- C1 (amended): the reset is done by the caller.  For every expression,
`clear()` followed by `processExpression` (the sequence `batchCalculation`
executes) behaves exactly as `processExpression` on an empty stack, and its
answer (returned value or error) is the same from any two calculator states,
whatever their stacks and histories hold. -/
theorem clear_then_processExpression (L : CLib) (expression : String) :
    (∀ c : RPNCalculator, (clear >>= fun _ => processExpression L expression) c =
      processExpression L expression ⟨[], c.history⟩) ∧
    (∀ c d : RPNCalculator,
      ((clear >>= fun _ => processExpression L expression) c).answer =
        ((clear >>= fun _ => processExpression L expression) d).answer) := by
  have hreset : ∀ c : RPNCalculator,
      (clear >>= fun _ => processExpression L expression) c =
        processExpression L expression ⟨[], c.history⟩ := by
    intro c
    simp [clear, clearLoop_eq_nil]
  refine ⟨hreset, ?_⟩
  intro c d
  rw [hreset c, hreset d]
  exact (stackOnly_processExpression L expression ⟨[], c.history⟩ ⟨[], d.history⟩ rfl).answer_eq

/-! ## The shape of `processExpression` -/

theorem processExpression_eq (L : CLib) (expression : String) (c : RPNCalculator) :
    processExpression L expression c =
      match processTokens L (tokenize expression) c with
      | .ok _ c1 =>
        match c1.stack with
        | [v] => .ok v ⟨[], c1.history ++ [historyEntry L expression v]⟩
        | _ => .throw .incompleteExpression c1
      | .throw e c1 => .throw e c1
      | .undefined => .undefined := by
  unfold processExpression
  simp only [bind_apply]
  cases hrun : processTokens L (tokenize expression) c with
  | undefined => rfl
  | throw e c1 => rfl
  | ok u c1 =>
    obtain ⟨stack, history⟩ := c1
    match stack with
    | [] => simp [size, raise]
    | [v] => simp [size, raise, pop, historyEntry]
    | v :: w :: rest => simp [size, raise]

theorem processTokens_cons (L : CLib) (t : String) (rest : List String) (c : RPNCalculator) :
    processTokens L (t :: rest) c =
      match tokenStep L t c with
      | .ok _ c1 => processTokens L rest c1
      | .throw e c1 => .throw e c1
      | .undefined => .undefined := by
  simp only [processTokens, tokenStep]
  cases hnum : isNumber t
  · cases hop : isOperator t
    · simp [raise]
    · simp only [Bool.false_eq_true, if_false, if_true, bind_apply]
      cases calculate L t c <;> rfl
  · simp only [if_true, bind_apply]
    cases stod t c with
    | ok v c1 => cases push v c1 <;> rfl
    | throw e c1 => rfl
    | undefined => rfl

theorem processTokens_append (L : CLib) (xs ys : List String) (c : RPNCalculator) :
    processTokens L (xs ++ ys) c =
      match processTokens L xs c with
      | .ok _ c1 => processTokens L ys c1
      | .throw e c1 => .throw e c1
      | .undefined => .undefined := by
  induction xs generalizing c with
  | nil => rfl
  | cons t rest ih =>
    rw [List.cons_append, processTokens_cons, processTokens_cons]
    cases tokenStep L t c with
    | ok u c1 => exact ih c1
    | throw e c1 => rfl
    | undefined => rfl

theorem splitTokens_whitespace (cs : List Char) (hws : ∀ ch ∈ cs, isspace ch = true) :
    splitTokens cs [] = [] := by
  induction cs with
  | nil => rfl
  | cons ch rest ih =>
    have h1 : isspace ch = true := hws ch (List.mem_cons_self _ _)
    have h2 := ih (fun x hx => hws x (List.mem_cons_of_mem _ hx))
    simp [splitTokens, h1, h2]

/-! ## Completion of an evaluation -/

/-- C11: when all tokens of an expression are processed without error,
`processExpression` succeeds if and only if the stack then holds exactly one
value, and it returns that value; with zero or with two or more values it
fails with the incomplete-expression error.  On an empty stack "5 5", the
empty expression and every all-whitespace expression fail in that way. -/
theorem processExpression_completion (L : CLib) (expression : String)
    (c c1 : RPNCalculator)
    (hrun : processTokens L (tokenize expression) c = .ok () c1) :
    ((∃ v c2, processExpression L expression c = .ok v c2) ↔ c1.stack.length = 1) ∧
    (∀ v, c1.stack = [v] →
      processExpression L expression c =
        .ok v ⟨[], c1.history ++ [historyEntry L expression v]⟩) ∧
    (c1.stack.length ≠ 1 →
      processExpression L expression c = .throw .incompleteExpression c1) ∧
    (∀ history, processExpression L "5 5" ⟨[], history⟩ =
      .throw .incompleteExpression ⟨[5, 5], history⟩) ∧
    (∀ (blank : String) history, (∀ ch ∈ blank.data, isspace ch = true) →
      processExpression L blank ⟨[], history⟩ =
        .throw .incompleteExpression ⟨[], history⟩) := by
  have heq := processExpression_eq L expression c
  rw [hrun] at heq
  obtain ⟨stack, history⟩ := c1
  refine ⟨?_, ?_, ?_, ?_, ?_⟩
  · match stack, heq with
    | [], heq => simp [heq]
    | [v], heq => simp [heq]
    | v :: w :: rest, heq => simp [heq]
  · intro v hv
    simp only at hv
    subst hv
    exact heq
  · intro hlen
    match stack, heq, hlen with
    | [], heq, _ => exact heq
    | [v], _, hlen => simp at hlen
    | v :: w :: rest, heq, _ => exact heq
  · intro history
    simp [processExpression, tokenize, splitTokens, isspace, processTokens, isNumber,
      isNumberLoop, stod, digitsValue, digitValue, size, push, raise]
  · intro blank history hws
    rw [processExpression_eq]
    simp [tokenize, splitTokens_whitespace blank.data hws, processTokens]

/-- C11 at a concrete input: after the tokens of "5 5 +" the stack holds the
single value 10, which is returned. -/
theorem processExpression_completion_witness :
    processExpression sampleLib "5 5 +" ⟨[], []⟩ =
      .ok 10 ⟨[], [historyEntry sampleLib "5 5 +" 10]⟩ := by
  have hrun : processTokens sampleLib (tokenize "5 5 +") ⟨[], []⟩ = .ok () ⟨[10], []⟩ := by
    simp [tokenize, splitTokens, isspace, processTokens, isNumber, isNumberLoop, isOperator,
      stod, digitsValue, digitValue, calculate, size, pop, push, raise]
    norm_num
  simpa using (processExpression_completion sampleLib "5 5 +" ⟨[], []⟩ ⟨[10], []⟩ hrun).2.1 10 rfl

/-! ## Invalid tokens -/

/-- C13: if the tokens of an expression are `pre`, then `tk`, then `post`,
where `tk` is neither a number nor an operator and the tokens of `pre` are
processed without error, `processExpression` fails with the invalid-token
error carrying `tk` verbatim, on the calculator as `pre` left it: no token of
`post` is processed. -/
theorem processExpression_invalid_token (L : CLib) (expression : String)
    (pre post : List String) (tk : String) (c c1 : RPNCalculator)
    (htokens : tokenize expression = pre ++ tk :: post)
    (hnum : isNumber tk = false) (hop : isOperator tk = false)
    (hpre : processTokens L pre c = .ok () c1) :
    processExpression L expression c = .throw (.invalidToken tk) c1 := by
  rw [processExpression_eq, htokens, processTokens_append, hpre]
  simp only []
  rw [processTokens_cons]
  simp [tokenStep, hnum, hop, raise]

/-- C13 at concrete inputs: "abc" fails with invalid token "abc", and "abc +"
fails with invalid token "abc", not with a stack underflow. -/
theorem processExpression_invalid_token_witness :
    processExpression sampleLib "abc" ⟨[], []⟩ = .throw (.invalidToken "abc") ⟨[], []⟩ ∧
    processExpression sampleLib "abc +" ⟨[], []⟩ = .throw (.invalidToken "abc") ⟨[], []⟩ :=
  ⟨processExpression_invalid_token sampleLib "abc" [] [] "abc" ⟨[], []⟩ ⟨[], []⟩
      (by decide) (by decide) (by decide) rfl,
    processExpression_invalid_token sampleLib "abc +" [] ["+"] "abc" ⟨[], []⟩ ⟨[], []⟩
      (by decide) (by decide) (by decide) rfl⟩

/-! ## The stack after a successful evaluation -/

/-- C18: when `processExpression` succeeds the stack is empty afterwards, so a
call that directly follows behaves exactly as a call on an empty stack; a
calculator left with values on its stack comes from a failed call. -/
theorem processExpression_leaves_empty (L : CLib) (expression : String)
    (c c1 : RPNCalculator) (v : ℚ)
    (hok : processExpression L expression c = .ok v c1) :
    c1.stack = [] ∧
    ∀ next : String, processExpression L next c1 = processExpression L next ⟨[], c1.history⟩ := by
  have hempty : c1.stack = [] := by
    rw [processExpression_eq] at hok
    cases hrun : processTokens L (tokenize expression) c with
    | undefined => rw [hrun] at hok; cases hok
    | throw e c2 => rw [hrun] at hok; cases hok
    | ok u c2 =>
      rw [hrun] at hok
      obtain ⟨stack, history⟩ := c2
      match stack, hok with
      | [], hok => cases hok
      | [w], hok =>
        simp only [Outcome.ok.injEq] at hok
        rw [← hok.2]
      | w :: x :: rest, hok => cases hok
  refine ⟨hempty, fun next => ?_⟩
  obtain ⟨stack, history⟩ := c1
  simp only at hempty
  subst hempty
  rfl

/-- C18 at a concrete input: after the successful "5 5 +" the stack is empty
and the next call runs as on an empty stack. -/
theorem processExpression_leaves_empty_witness :
    ∃ c1 : RPNCalculator, processExpression sampleLib "5 5 +" ⟨[], []⟩ = .ok 10 c1 ∧
      c1.stack = [] ∧
      processExpression sampleLib "5 5" c1 = processExpression sampleLib "5 5" ⟨[], c1.history⟩ := by
  have hok : processExpression sampleLib "5 5 +" ⟨[], []⟩ =
      .ok 10 ⟨[], [historyEntry sampleLib "5 5 +" 10]⟩ := by
    simp [processExpression, tokenize, splitTokens, isspace, processTokens, isNumber,
      isNumberLoop, isOperator, stod, digitsValue, digitValue, calculate, size, pop, push,
      raise, historyEntry]
    norm_num
  exact ⟨_, hok, (processExpression_leaves_empty sampleLib "5 5 +" _ _ _ hok).1,
    (processExpression_leaves_empty sampleLib "5 5 +" _ _ _ hok).2 "5 5"⟩

/-! ## History and the unknown-operator error -/

theorem tame_pure {α : Type} (a : α) : Tame (pure a : M α) := by
  intro c
  simp

theorem tame_raise {α : Type} (e : RPNError) (he : ∀ s : String, e ≠ .unknownOperator s) :
    Tame (raise e : M α) := by
  intro c
  simp [raise, he]

theorem tame_bind {α β : Type} {m : M α} {f : α → M β} (hm : Tame m)
    (hf : ∀ a, Tame (f a)) : Tame (m >>= f) := by
  intro c
  have h1 := hm c
  simp only [bind_apply]
  cases hc : m c with
  | undefined => simp
  | throw e c1 => rw [hc] at h1; simpa using h1
  | ok a c1 =>
    rw [hc] at h1
    simp only at h1 ⊢
    have h2 := hf a c1
    cases hd : f a c1 with
    | undefined => simp
    | throw e c2 => rw [hd] at h2; simp only at h2 ⊢; exact ⟨h2.1.trans h1, h2.2⟩
    | ok b c2 => rw [hd] at h2; simp only at h2 ⊢; exact h2.trans h1

theorem tame_ite {α : Type} (p : Prop) [Decidable p] {m1 m2 : M α}
    (h1 : Tame m1) (h2 : Tame m2) : Tame (if p then m1 else m2) := by
  split
  · exact h1
  · exact h2

theorem tame_push (v : ℚ) : Tame (push v) := by
  intro c
  simp [push]

theorem tame_pop : Tame pop := by
  rintro ⟨s, h⟩
  cases s <;> simp [pop]

theorem tame_size : Tame size := by
  intro c
  simp [size]

theorem tame_stackEmpty : Tame stackEmpty := by
  intro c
  simp [stackEmpty]

theorem tame_staticCastInt (x : ℚ) : Tame (staticCastInt x) := by
  intro c
  by_cases h : INT_MIN ≤ trunc x ∧ trunc x ≤ INT_MAX <;> simp [staticCastInt, h]

theorem stod_cases (str : String) (c : RPNCalculator) :
    stod str c = .throw .stodInvalidArgument c ∨ ∃ v : ℚ, stod str c = .ok v c := by
  unfold stod
  simp only []
  split
  · exact Or.inl rfl
  · exact Or.inr ⟨_, rfl⟩

theorem tame_stod (str : String) : Tame (stod str) := by
  intro c
  rcases stod_cases str c with h | ⟨v, h⟩
  · simp [h]
  · simp [h]

theorem tame_fibonacciLoop (n : Int) :
    ∀ (k : Nat) (i : Int) (a b : ℚ), (n + 1 - i).toNat = k → Tame (fibonacciLoop n i a b) := by
  intro k
  induction k with
  | zero =>
    intro i a b hk
    rw [fibonacciLoop]
    have hgt : ¬ (i ≤ n) := by omega
    simp only [hgt, dite_false]
    exact tame_pure b
  | succ k ih =>
    intro i a b hk
    rw [fibonacciLoop]
    have hle : i ≤ n := by omega
    simp only [hle, dite_true]
    split
    · exact ih (i + 1) b (a + b) (by omega)
    · intro c
      trivial

theorem tame_fibonacci (n : Int) : Tame (fibonacci n) := by
  unfold fibonacci
  refine tame_ite _ (tame_raise _ (by simp)) (tame_ite _ (tame_pure _)
    (tame_ite _ (tame_pure _) ?_))
  exact tame_fibonacciLoop n _ 2 0 1 rfl

theorem tame_pascalLoop (row col : Int) :
    ∀ (k : Nat) (i : Int) (result : ℚ), (col + 1 - i).toNat = k →
      Tame (pascalLoop row col i result) := by
  intro k
  induction k with
  | zero =>
    intro i result hk
    rw [pascalLoop]
    have hgt : ¬ (i ≤ col) := by omega
    simp only [hgt, dite_false]
    exact tame_pure result
  | succ k ih =>
    intro i result hk
    rw [pascalLoop]
    have hle : i ≤ col := by omega
    simp only [hle, dite_true]
    split
    · split
      · exact ih (i + 1) _ (by omega)
      · intro c
        trivial
    · intro c
      trivial

theorem tame_pascal (row col : Int) : Tame (pascal row col) := by
  unfold pascal
  exact tame_ite _ (tame_raise _ (by simp)) (tame_pascalLoop row col _ 1 1 rfl)

theorem isOperator_iff (t : String) : isOperator t = true ↔ t ∈ operators := by
  simp [isOperator, operators, or_assoc]

theorem tame_calculate (L : CLib) (operation : String) (hop : isOperator operation = true) :
    Tame (calculate L operation) := by
  have hmem := (isOperator_iff operation).1 hop
  simp only [operators, List.mem_cons, List.mem_singleton, List.not_mem_nil, or_false] at hmem
  rcases hmem with h | h | h | h | h | h | h | h | h | h | h <;> subst h <;>
    unfold calculate <;> simp only [String.reduceEq, if_true, if_false] <;>
    repeat' first
      | exact tame_pure _
      | exact tame_raise _ (by simp)
      | exact tame_push _
      | exact tame_pop
      | exact tame_size
      | exact tame_stackEmpty
      | exact tame_staticCastInt _
      | exact tame_fibonacci _
      | exact tame_pascal _ _
      | apply tame_ite
      | apply tame_bind
      | intro _

theorem tame_tokenStep (L : CLib) (t : String) : Tame (tokenStep L t) := by
  unfold tokenStep
  cases hnum : isNumber t
  · cases hop : isOperator t
    · simp only [Bool.false_eq_true, if_false]
      exact tame_raise _ (by simp)
    · simp only [Bool.false_eq_true, if_false, if_true]
      exact tame_calculate L t hop
  · simp only [if_true]
    exact tame_bind (tame_stod t) (fun v => tame_push v)

theorem tame_processTokens (L : CLib) (tokens : List String) :
    Tame (processTokens L tokens) := by
  induction tokens with
  | nil => exact tame_pure ()
  | cons t rest ih =>
    have h : processTokens L (t :: rest) = (tokenStep L t >>= fun _ => processTokens L rest) := by
      funext c
      rw [processTokens_cons, bind_apply]
      cases tokenStep L t c <;> rfl
    rw [h]
    exact tame_bind (tame_tokenStep L t) (fun _ => ih)

/-- C12: if `processExpression` fails (with any exception) the history is
exactly what it was before the call; if it succeeds the history is the
previous history with exactly one entry appended at the end, the expression
text followed by " = " and the rendered result. -/
theorem processExpression_history (L : CLib) (expression : String) (c : RPNCalculator) :
    (∀ e c1, processExpression L expression c = .throw e c1 → c1.history = c.history) ∧
    (∀ v c1, processExpression L expression c = .ok v c1 →
      c1.history = c.history ++ [expression ++ " = " ++ L.to_string v]) := by
  have htame := tame_processTokens L (tokenize expression) c
  have heq := processExpression_eq L expression c
  cases hrun : processTokens L (tokenize expression) c with
  | undefined =>
    rw [hrun] at heq
    constructor
    · intro e c1 h; rw [heq] at h; cases h
    · intro v c1 h; rw [heq] at h; cases h
  | throw e0 c0 =>
    rw [hrun] at heq htame
    constructor
    · intro e c1 h
      rw [heq] at h
      simp only [Outcome.throw.injEq] at h
      rw [← h.2]
      exact htame.1
    · intro v c1 h; rw [heq] at h; cases h
  | ok u c0 =>
    rw [hrun] at heq htame
    simp only at htame
    obtain ⟨stack, history⟩ := c0
    simp only at htame
    subst htame
    match stack, heq with
    | [], heq =>
      constructor
      · intro e c1 h; rw [heq] at h; simp only [Outcome.throw.injEq] at h; rw [← h.2]
      · intro v c1 h; rw [heq] at h; cases h
    | [w], heq =>
      constructor
      · intro e c1 h; rw [heq] at h; cases h
      · intro v c1 h
        rw [heq] at h
        simp only [Outcome.ok.injEq] at h
        rw [← h.2, ← h.1]
        rfl
    | w :: x :: rest, heq =>
      constructor
      · intro e c1 h; rw [heq] at h; simp only [Outcome.throw.injEq] at h; rw [← h.2]
      · intro v c1 h; rw [heq] at h; cases h

/-- C12 at concrete inputs: the failing "5 5" leaves the history as it was and
the successful "5 5 +" appends one entry. -/
theorem processExpression_history_witness :
    (∀ e c1, processExpression sampleLib "5 5" ⟨[], ["old"]⟩ = .throw e c1 →
      c1.history = ["old"]) ∧
    (∀ v c1, processExpression sampleLib "5 5 +" ⟨[], ["old"]⟩ = .ok v c1 →
      c1.history = ["old"] ++ ["5 5 +" ++ " = " ++ sampleLib.to_string v]) :=
  ⟨(processExpression_history sampleLib "5 5" ⟨[], ["old"]⟩).1,
    (processExpression_history sampleLib "5 5 +" ⟨[], ["old"]⟩).2⟩

/-- C17: the classifier and the dispatcher agree on the operator set.  A
token is accepted by `isOperator` exactly when `calculate` on it never ends
with the unknown-operator error, on any calculator; on every other token
`calculate` raises that error at once.  Hence `processExpression` never ends
with the unknown-operator error. -/
theorem isOperator_agrees_with_calculate (L : CLib) :
    (∀ t : String, isOperator t = true ↔
      ∀ (c : RPNCalculator) (s : String),
        (calculate L t c).answer ≠ some (.inl (.unknownOperator s))) ∧
    (∀ (t : String) (c : RPNCalculator), isOperator t = false →
      calculate L t c = .throw (.unknownOperator t) c) ∧
    (∀ (expression : String) (c : RPNCalculator) (s : String),
      (processExpression L expression c).answer ≠ some (.inl (.unknownOperator s))) := by
  have hunknown : ∀ (t : String) (c : RPNCalculator), isOperator t = false →
      calculate L t c = .throw (.unknownOperator t) c := by
    intro t c hno
    simp only [isOperator, Bool.or_eq_false_iff, decide_eq_false_iff_not] at hno
    obtain ⟨⟨⟨⟨⟨⟨⟨⟨⟨⟨h1, h2⟩, h3⟩, h4⟩, h5⟩, h6⟩, h7⟩, h8⟩, h9⟩, h10⟩, h11⟩ := hno
    simp [calculate, h1, h2, h3, h4, h5, h6, h7, h8, h9, h10, h11, raise]
  have hnever : ∀ {α : Type} (m : M α), Tame m → ∀ (c : RPNCalculator) (s : String),
      (m c).answer ≠ some (.inl (.unknownOperator s)) := by
    intro α m hm c s
    have h := hm c
    cases hc : m c with
    | undefined => simp [Outcome.answer]
    | ok a c1 => simp [Outcome.answer]
    | throw e c1 =>
      rw [hc] at h
      simp only [Outcome.answer, ne_eq, Option.some.injEq, Sum.inl.injEq]
      exact h.2 s
  refine ⟨?_, hunknown, ?_⟩
  · intro t
    constructor
    · intro hop
      exact hnever _ (tame_calculate L t hop)
    · intro hall
      by_contra hno
      have hno2 : isOperator t = false := by simpa using hno
      have := hall ⟨[], []⟩ t
      rw [hunknown t _ hno2] at this
      exact this rfl
  · intro expression c s
    have htame := tame_processTokens L (tokenize expression) c
    rw [processExpression_eq]
    cases hrun : processTokens L (tokenize expression) c with
    | undefined => simp [Outcome.answer]
    | throw e c1 =>
      rw [hrun] at htame
      simp only [Outcome.answer, ne_eq, Option.some.injEq, Sum.inl.injEq]
      exact htame.2 s
    | ok u c1 =>
      obtain ⟨stack, history⟩ := c1
      match stack with
      | [] => simp [Outcome.answer]
      | [w] => simp [Outcome.answer]
      | w :: x :: rest => simp [Outcome.answer]

/-! ## The operand stack -/

/-- C16: the operand stack is a LIFO container with reported underflow.
`push(v)` followed by `pop()` returns `v` and restores the calculator;
`pop()` and `peek()` fail with the empty-stack error exactly when the stack
is empty, leaving the calculator as it was; `peek()` on a non-empty stack
returns the top value and changes nothing; after `clear()` the size is 0. -/
theorem stack_lifo :
    (∀ (c : RPNCalculator) (v : ℚ), (push v >>= fun _ => pop) c = .ok v c) ∧
    (∀ c : RPNCalculator, (∃ e c1, pop c = .throw e c1) ↔ c.stack = []) ∧
    (∀ c : RPNCalculator, c.stack = [] → pop c = .throw .stackEmpty c) ∧
    (∀ c : RPNCalculator, (∃ e c1, peek c = .throw e c1) ↔ c.stack = []) ∧
    (∀ c : RPNCalculator, c.stack = [] → peek c = .throw .stackEmpty c) ∧
    (∀ (v : ℚ) (rest : List ℚ) (history : List String),
      peek ⟨v :: rest, history⟩ = .ok v ⟨v :: rest, history⟩) ∧
    (∀ (v : ℚ) (rest : List ℚ) (history : List String),
      pop ⟨v :: rest, history⟩ = .ok v ⟨rest, history⟩) ∧
    (∀ c : RPNCalculator, (clear >>= fun _ => size) c = .ok 0 ⟨[], c.history⟩) := by
  refine ⟨?_, ?_, ?_, ?_, ?_, ?_, ?_, ?_⟩
  · rintro ⟨stack, history⟩ v
    simp [push, pop]
  · rintro ⟨stack, history⟩
    cases stack <;> simp [pop]
  · rintro ⟨stack, history⟩ h
    simp only at h
    subst h
    rfl
  · rintro ⟨stack, history⟩
    cases stack <;> simp [peek]
  · rintro ⟨stack, history⟩ h
    simp only at h
    subst h
    rfl
  · intro v rest history
    rfl
  · intro v rest history
    rfl
  · intro c
    simp [clear, size, clearLoop_eq_nil]

/-! ## Batch calculation -/

theorem batchLoop_cons (L : CLib) (expression : String) (rest : List String) (i : Nat)
    (c : RPNCalculator) :
    batchLoop L (expression :: rest) i c =
      match processExpression L expression ⟨[], c.history⟩ with
      | .ok v c1 =>
        (match batchLoop L rest (i + 1) c1 with
          | .ok lines c2 => .ok (BatchLine.result (i + 1) expression v :: lines) c2
          | .throw e c2 => .throw e c2
          | .undefined => .undefined)
      | .throw e c1 =>
        (match batchLoop L rest (i + 1) c1 with
          | .ok lines c2 => .ok (BatchLine.error (i + 1) e :: lines) c2
          | .throw e2 c2 => .throw e2 c2
          | .undefined => .undefined)
      | .undefined => .undefined := by
  simp only [batchLoop, bind_apply, tryCatch, clear, clearLoop_eq_nil, pure_apply]
  cases processExpression L expression ⟨[], c.history⟩ with
  | undefined => rfl
  | throw e c1 => simp only []; cases batchLoop L rest (i + 1) c1 <;> rfl
  | ok v c1 => simp only []; cases batchLoop L rest (i + 1) c1 <;> rfl

theorem soloAnswer_eq (L : CLib) (expression : String) (history : List String) :
    (processExpression L expression ⟨[], history⟩).answer = soloAnswer L expression :=
  (stackOnly_processExpression L expression ⟨[], history⟩ ⟨[], []⟩ rfl).answer_eq

theorem batchLoop_answer (L : CLib) (expressions : List String) :
    ∀ (i : Nat) (c : RPNCalculator),
      (batchLoop L expressions i c).answer = (soloLines L expressions i).map Sum.inr := by
  induction expressions with
  | nil => intro i c; rfl
  | cons expression rest ih =>
    intro i c
    rw [batchLoop_cons]
    have hsolo := soloAnswer_eq L expression c.history
    simp only [soloLines]
    cases hrun : processExpression L expression ⟨[], c.history⟩ with
    | undefined =>
      rw [hrun] at hsolo
      simp only [Outcome.answer] at hsolo
      simp [← hsolo, Outcome.answer]
    | throw e c1 =>
      rw [hrun] at hsolo
      simp only [Outcome.answer] at hsolo
      have hrest := ih (i + 1) c1
      rw [← hsolo]
      dsimp only
      cases hb : batchLoop L rest (i + 1) c1 with
      | undefined =>
        rw [hb] at hrest
        simp only [Outcome.answer] at hrest
        cases hs : soloLines L rest (i + 1) with
        | none => simp [Outcome.answer]
        | some lines => rw [hs] at hrest; simp at hrest
      | throw e2 c2 =>
        rw [hb] at hrest
        simp only [Outcome.answer] at hrest
        cases hs : soloLines L rest (i + 1) <;> rw [hs] at hrest <;> simp at hrest
      | ok lines c2 =>
        rw [hb] at hrest
        simp only [Outcome.answer] at hrest
        cases hs : soloLines L rest (i + 1) with
        | none => rw [hs] at hrest; simp at hrest
        | some lines2 =>
          rw [hs] at hrest
          simp at hrest
          subst hrest
          simp [Outcome.answer, reportOf]
    | ok v c1 =>
      rw [hrun] at hsolo
      simp only [Outcome.answer] at hsolo
      have hrest := ih (i + 1) c1
      rw [← hsolo]
      dsimp only
      cases hb : batchLoop L rest (i + 1) c1 with
      | undefined =>
        rw [hb] at hrest
        simp only [Outcome.answer] at hrest
        cases hs : soloLines L rest (i + 1) with
        | none => simp [Outcome.answer]
        | some lines => rw [hs] at hrest; simp at hrest
      | throw e2 c2 =>
        rw [hb] at hrest
        simp only [Outcome.answer] at hrest
        cases hs : soloLines L rest (i + 1) <;> rw [hs] at hrest <;> simp at hrest
      | ok lines c2 =>
        rw [hb] at hrest
        simp only [Outcome.answer] at hrest
        cases hs : soloLines L rest (i + 1) with
        | none => rw [hs] at hrest; simp at hrest
        | some lines2 =>
          rw [hs] at hrest
          simp at hrest
          subst hrest
          simp [Outcome.answer, reportOf]

theorem soloLines_spec (L : CLib) (expressions : List String) :
    ∀ (j : Nat) (lines : List BatchLine), soloLines L expressions j = some lines →
      lines.length = expressions.length ∧
      ∀ (i : Nat) (expression : String), expressions[i]? = some expression →
        ∃ r, soloAnswer L expression = some r ∧
          lines[i]? = some (reportOf (j + i) expression r) := by
  induction expressions with
  | nil =>
    intro j lines h
    simp only [soloLines, Option.some.injEq] at h
    subst h
    simp
  | cons e rest ih =>
    intro j lines h
    simp only [soloLines] at h
    cases hs : soloAnswer L e with
    | none => rw [hs] at h; simp at h
    | some r =>
      cases hr : soloLines L rest (j + 1) with
      | none => rw [hs, hr] at h; simp at h
      | some tail =>
        rw [hs, hr] at h
        simp only [Option.some.injEq] at h
        subst h
        obtain ⟨hlen, hidx⟩ := ih (j + 1) tail hr
        refine ⟨by simp [hlen], ?_⟩
        intro i expression hi
        cases i with
        | zero =>
          simp only [List.getElem?_cons_zero, Option.some.injEq] at hi
          subst hi
          exact ⟨r, hs, by simp⟩
        | succ i =>
          simp only [List.getElem?_cons_succ] at hi
          obtain ⟨r2, h1, h2⟩ := hidx i expression hi
          refine ⟨r2, h1, ?_⟩
          simp only [List.getElem?_cons_succ, h2]
          congr 2
          omega

theorem soloLines_total (L : CLib) (expressions : List String)
    (hdef : ∀ e ∈ expressions, soloAnswer L e ≠ none) :
    ∀ j : Nat, ∃ lines, soloLines L expressions j = some lines := by
  induction expressions with
  | nil => intro j; exact ⟨[], rfl⟩
  | cons e rest ih =>
    intro j
    obtain ⟨tail, ht⟩ := ih (fun x hx => hdef x (List.mem_cons_of_mem _ hx)) (j + 1)
    cases hs : soloAnswer L e with
    | none => exact absurd hs (hdef e (List.mem_cons_self _ _))
    | some r => exact ⟨reportOf j e r :: tail, by simp [soloLines, hs, ht]⟩

/-- C14: for every list of expressions and every initial calculator,
`batchCalculation` never ends with an exception and prints, for the
expression at each position, exactly the report of the answer (value or
error) that `processExpression` gives for that expression alone on an empty
stack.  An error in one expression does not stop the later ones, and no
expression sees what an earlier one left: ["1 1 +", "2 2 +"] yields 2 then 4
and ["5 5", "1 1 +"] yields an error then 2. -/
theorem batchCalculation_reports (L : CLib) :
    (∀ (expressions : List String) (c : RPNCalculator),
      (batchCalculation L expressions c).answer =
        (soloLines L expressions 0).map Sum.inr) ∧
    (∀ (expressions : List String) (lines : List BatchLine),
      soloLines L expressions 0 = some lines →
        lines.length = expressions.length ∧
        ∀ (i : Nat) (expression : String), expressions[i]? = some expression →
          ∃ r, soloAnswer L expression = some r ∧
            lines[i]? = some (reportOf i expression r)) ∧
    (∀ expressions : List String, (∀ e ∈ expressions, soloAnswer L e ≠ none) →
      ∃ lines, soloLines L expressions 0 = some lines) ∧
    (∀ c : RPNCalculator, (batchCalculation L ["1 1 +", "2 2 +"] c).answer =
      some (.inr [.result 1 "1 1 +" 2, .result 2 "2 2 +" 4])) ∧
    (∀ c : RPNCalculator, (batchCalculation L ["5 5", "1 1 +"] c).answer =
      some (.inr [.error 1 .incompleteExpression, .result 2 "1 1 +" 2])) := by
  have hmain : ∀ (expressions : List String) (c : RPNCalculator),
      (batchCalculation L expressions c).answer =
        (soloLines L expressions 0).map Sum.inr :=
    fun expressions c => batchLoop_answer L expressions 0 c
  have h11 : soloAnswer L "1 1 +" = some (.inr 2) := by
    simp [soloAnswer, processExpression, tokenize, splitTokens, isspace, processTokens,
      isNumber, isNumberLoop, isOperator, stod, digitsValue, digitValue, calculate, size,
      pop, push, raise, Outcome.answer]
    norm_num
  have h22 : soloAnswer L "2 2 +" = some (.inr 4) := by
    simp [soloAnswer, processExpression, tokenize, splitTokens, isspace, processTokens,
      isNumber, isNumberLoop, isOperator, stod, digitsValue, digitValue, calculate, size,
      pop, push, raise, Outcome.answer]
    norm_num
  have h55 : soloAnswer L "5 5" = some (.inl .incompleteExpression) := by
    simp [soloAnswer, processExpression, tokenize, splitTokens, isspace, processTokens,
      isNumber, isNumberLoop, stod, digitsValue, digitValue, size, push, raise,
      Outcome.answer]
  refine ⟨hmain, ?_, ?_, ?_, ?_⟩
  · intro expressions lines h
    have := soloLines_spec L expressions 0 lines h
    simpa using this
  · intro expressions hdef
    exact soloLines_total L expressions hdef 0
  · intro c
    rw [hmain]
    simp [soloLines, h11, h22, reportOf]
  · intro c
    rw [hmain]
    simp [soloLines, h55, h11, reportOf]

/-! ## Two-operand expressions -/

theorem isspace_false_of (ch : Char) (h : ch.isDigit = true ∨ ch = '.' ∨ ch = '-') :
    isspace ch = false := by
  rw [Bool.eq_false_iff]
  intro hs
  simp only [isspace, Bool.or_eq_true, decide_eq_true_eq] at hs
  rcases hs with ((((hs | hs) | hs) | hs) | hs) | hs <;> subst hs <;> revert h <;> decide

theorem isNumber_word (x : String) (hx : isNumber x = true) :
    x.data ≠ [] ∧ ∀ ch ∈ x.data, isspace ch = false := by
  rcases (isNumber_iff x).1 hx with ⟨hne, hall, _⟩ | ⟨hhead, ⟨_, hall, _⟩⟩
  · refine ⟨hne, fun ch hch => isspace_false_of ch ?_⟩
    rcases hall ch hch with h | h
    · exact Or.inl h
    · exact Or.inr (Or.inl h)
  · cases hd : x.data with
    | nil => rw [hd] at hhead; simp at hhead
    | cons c0 rest =>
      rw [hd] at hhead hall
      simp only [List.head?_cons, Option.some.injEq] at hhead
      simp only [List.tail_cons] at hall
      refine ⟨by simp, fun ch hch => isspace_false_of ch ?_⟩
      rcases List.mem_cons.1 hch with h | h
      · exact Or.inr (Or.inr (h.trans hhead))
      · rcases hall ch h with h2 | h2
        · exact Or.inl h2
        · exact Or.inr (Or.inl h2)

theorem splitTokens_word (w : List Char) (hw : ∀ ch ∈ w, isspace ch = false) :
    ∀ (rest cur : List Char), splitTokens (w ++ rest) cur = splitTokens rest (w.reverse ++ cur) := by
  induction w with
  | nil => intro rest cur; rfl
  | cons ch tail ih =>
    intro rest cur
    have h1 : isspace ch = false := hw ch (List.mem_cons_self _ _)
    have h2 := ih (fun x hx => hw x (List.mem_cons_of_mem _ hx)) rest (ch :: cur)
    show splitTokens (ch :: (tail ++ rest)) cur = _
    rw [splitTokens]
    simp only [h1, Bool.false_eq_true, if_false]
    rw [h2]
    simp

theorem tokenize_three (x y z : String)
    (hx : x.data ≠ [] ∧ ∀ ch ∈ x.data, isspace ch = false)
    (hy : y.data ≠ [] ∧ ∀ ch ∈ y.data, isspace ch = false)
    (hz : z.data ≠ [] ∧ ∀ ch ∈ z.data, isspace ch = false) :
    tokenize (x ++ " " ++ y ++ " " ++ z) = [x, y, z] := by
  have hdata : (x ++ " " ++ y ++ " " ++ z).data =
      x.data ++ (' ' :: (y.data ++ (' ' :: (z.data ++ [])))) := by
    simp [String.data_append]
  have hrx : x.data.reverse.isEmpty = false := by
    cases h : x.data with
    | nil => exact absurd h hx.1
    | cons _ _ => simp
  have hry : y.data.reverse.isEmpty = false := by
    cases h : y.data with
    | nil => exact absurd h hy.1
    | cons _ _ => simp
  have hrz : z.data.reverse.isEmpty = false := by
    cases h : z.data with
    | nil => exact absurd h hz.1
    | cons _ _ => simp
  have hsp : isspace ' ' = true := by decide
  unfold tokenize
  rw [hdata, splitTokens_word x.data hx.2]
  simp only [List.append_nil, splitTokens, hsp, if_true, hrx, Bool.false_eq_true, if_false,
    List.reverse_reverse]
  rw [splitTokens_word y.data hy.2]
  simp only [List.append_nil, splitTokens, hsp, if_true, hry, Bool.false_eq_true, if_false,
    List.reverse_reverse]
  have hlast := splitTokens_word z.data hz.2 [] []
  rw [List.append_nil] at hlast
  rw [hlast]
  simp only [List.append_nil, splitTokens, hrz, Bool.false_eq_true, if_false,
    List.reverse_reverse]

/-- C15: for number tokens `x`, `y` that `stod` converts to `a`, `b`, and every
`OP` among `+`, `-`, `*`, and `/` when `b ≠ 0`, `processExpression` on the
text "x y OP" started on an empty stack succeeds, returns `a OP b` (exact
arithmetic), leaves the stack empty and records the evaluation.  Operators
chain from left to right: "5 5 +" returns 10 and "5 5 + 3 *" returns 30. -/
theorem processExpression_binary (L : CLib) (x y op : String) (a b : ℚ)
    (history : List String)
    (hx : isNumber x = true) (hy : isNumber y = true)
    (hxa : ∀ c, stod x c = .ok a c) (hyb : ∀ c, stod y c = .ok b c)
    (hop : op ∈ ["+", "-", "*", "/"]) (hdiv : op = "/" → b ≠ 0) :
    processExpression L (x ++ " " ++ y ++ " " ++ op) ⟨[], history⟩ =
        .ok (arith op a b)
          ⟨[], history ++ [historyEntry L (x ++ " " ++ y ++ " " ++ op) (arith op a b)]⟩ ∧
    (∀ h0 : List String, (processExpression L "5 5 +" ⟨[], h0⟩).answer = some (.inr 10)) ∧
    (∀ h0 : List String, (processExpression L "5 5 + 3 *" ⟨[], h0⟩).answer = some (.inr 30)) := by
  refine ⟨?_, ?_, ?_⟩
  · have hopw : op.data ≠ [] ∧ ∀ ch ∈ op.data, isspace ch = false := by
      simp only [List.mem_cons, List.mem_singleton, List.not_mem_nil, or_false] at hop
      rcases hop with h | h | h | h <;> subst h <;> decide
    have hopn : isNumber op = false ∧ isOperator op = true := by
      simp only [List.mem_cons, List.mem_singleton, List.not_mem_nil, or_false] at hop
      rcases hop with h | h | h | h <;> subst h <;> decide
    have hcalc : calculate L op ⟨[b, a], history⟩ = .ok () ⟨[arith op a b], history⟩ := by
      simp only [List.mem_cons, List.mem_singleton, List.not_mem_nil, or_false] at hop
      rcases hop with h | h | h | h <;> subst h
      · simp [calculate, arith, size, pop, push]
      · simp [calculate, arith, size, pop, push]
      · simp [calculate, arith, size, pop, push]
      · have hb : b ≠ 0 := hdiv rfl
        simp [calculate, arith, size, pop, push, hb]
    rw [processExpression_eq, tokenize_three x y op (isNumber_word x hx) (isNumber_word y hy) hopw]
    have hrun : processTokens L [x, y, op] ⟨[], history⟩ = .ok () ⟨[arith op a b], history⟩ := by
      rw [processTokens_cons]
      simp only [tokenStep, hx, if_true, bind_apply, hxa, push]
      rw [processTokens_cons]
      simp only [tokenStep, hy, if_true, bind_apply, hyb, push]
      rw [processTokens_cons]
      simp only [tokenStep, hopn.1, hopn.2, Bool.false_eq_true, if_false, if_true, hcalc]
      rfl
    rw [hrun]
  · intro h0
    simp [processExpression, tokenize, splitTokens, isspace, processTokens, isNumber,
      isNumberLoop, isOperator, stod, digitsValue, digitValue, calculate, size, pop, push,
      raise, Outcome.answer]
    norm_num
  · intro h0
    simp [processExpression, tokenize, splitTokens, isspace, processTokens, isNumber,
      isNumberLoop, isOperator, stod, digitsValue, digitValue, calculate, size, pop, push,
      raise, Outcome.answer]
    norm_num

/-- C15 at a concrete input: the text "7 2 -" on an empty stack returns
7 - 2 = 5. -/
theorem processExpression_binary_witness :
    processExpression sampleLib ("7" ++ " " ++ "2" ++ " " ++ "-") ⟨[], []⟩ =
        .ok (arith "-" 7 2)
          ⟨[], [] ++ [historyEntry sampleLib ("7" ++ " " ++ "2" ++ " " ++ "-") (arith "-" 7 2)]⟩ ∧
    arith "-" 7 2 = 5 := by
  refine ⟨(processExpression_binary sampleLib "7" "2" "-" 7 2 [] (by decide) (by decide)
    (fun c => by simp [stod, digitsValue, digitValue])
    (fun c => by simp [stod, digitsValue, digitValue]) (by decide) (by decide)).1, ?_⟩
  have hne : ¬ ("-" = "+") := by decide
  simp only [arith, hne, if_false, if_true]
  norm_num

/-! ## Stack-size accounting -/

theorem keeps_fibonacciLoop (n : Int) :
    ∀ (k : Nat) (i : Int) (a b : ℚ), (n + 1 - i).toNat = k → Keeps (fibonacciLoop n i a b) := by
  intro k
  induction k with
  | zero =>
    intro i a b hk c v c1 h
    rw [fibonacciLoop] at h
    have hgt : ¬ (i ≤ n) := by omega
    simp only [hgt, dite_false, pure_apply, Outcome.ok.injEq] at h
    exact h.2.symm
  | succ k ih =>
    intro i a b hk c v c1 h
    rw [fibonacciLoop] at h
    have hle : i ≤ n := by omega
    simp only [hle, dite_true] at h
    by_cases hlt : i < INT_MAX
    · simp only [hlt, if_true] at h
      exact ih (i + 1) b (a + b) (by omega) c v c1 h
    · simp only [hlt, if_false] at h
      cases h

theorem keeps_fibonacci (n : Int) : Keeps (fibonacci n) := by
  intro c v c1 h
  unfold fibonacci at h
  by_cases h1 : n < 0
  · simp [h1, raise] at h
  · by_cases h2 : n = 0
    · simp [h1, h2] at h; exact h.2.symm
    · by_cases h3 : n = 1
      · simp [h1, h2, h3] at h; exact h.2.symm
      · simp only [h1, h2, h3, if_false] at h
        exact keeps_fibonacciLoop n _ 2 0 1 rfl c v c1 h

theorem keeps_pascalLoop (row col : Int) :
    ∀ (k : Nat) (i : Int) (result : ℚ), (col + 1 - i).toNat = k →
      Keeps (pascalLoop row col i result) := by
  intro k
  induction k with
  | zero =>
    intro i result hk c v c1 h
    rw [pascalLoop] at h
    have hgt : ¬ (i ≤ col) := by omega
    simp only [hgt, dite_false, pure_apply, Outcome.ok.injEq] at h
    exact h.2.symm
  | succ k ih =>
    intro i result hk c v c1 h
    rw [pascalLoop] at h
    have hle : i ≤ col := by omega
    simp only [hle, dite_true] at h
    by_cases hr : INT_MIN ≤ row - i ∧ row - i ≤ INT_MAX ∧ row - i + 1 ≤ INT_MAX
    · simp only [hr, and_self, if_true] at h
      by_cases hlt : i < INT_MAX
      · simp only [hlt, if_true] at h
        exact ih (i + 1) _ (by omega) c v c1 h
      · simp only [hlt, if_false] at h
        cases h
    · simp only [hr, if_false] at h
      cases h

theorem keeps_pascal (row col : Int) : Keeps (pascal row col) := by
  intro c v c1 h
  unfold pascal at h
  by_cases hg : row < 0 ∨ col < 0 ∨ col > row
  · simp [hg, raise] at h
  · simp only [hg, if_false] at h
    exact keeps_pascalLoop row col _ 1 1 rfl c v c1 h

theorem keeps_staticCastInt (x : ℚ) : Keeps (staticCastInt x) := by
  intro c v c1 h
  by_cases hr : INT_MIN ≤ trunc x ∧ trunc x ≤ INT_MAX
  · simp [staticCastInt, hr] at h; exact h.2.symm
  · simp [staticCastInt, hr] at h

theorem keeps_stod (str : String) : Keeps (stod str) := by
  intro c v c1 h
  rcases stod_cases str c with h2 | ⟨w, h2⟩
  · rw [h2] at h; cases h
  · rw [h2] at h
    simp only [Outcome.ok.injEq] at h
    exact h.2.symm

theorem shift_of_keeps {α : Type} {m : M α} (h : Keeps m) : Shift 0 m := by
  intro c v c1 hrun
  rw [h c v c1 hrun]
  simp

theorem shift_pure {α : Type} (a : α) : Shift 0 (pure a : M α) := by
  intro c v c1 h
  simp only [pure_apply, Outcome.ok.injEq] at h
  rw [← h.2]
  simp

theorem shift_raise {α : Type} (d : Int) (e : RPNError) : Shift d (raise e : M α) := by
  intro c v c1 h
  cases h

theorem shift_raise_bind {α β : Type} (d : Int) (e : RPNError) (f : α → M β) :
    Shift d ((raise e : M α) >>= f) := by
  intro c v c1 h
  cases h

theorem shift_bind {α β : Type} {d1 d2 d : Int} {m : M α} {f : α → M β}
    (h1 : Shift d1 m) (h2 : ∀ a, Shift d2 (f a)) (hd : d1 + d2 = d) : Shift d (m >>= f) := by
  intro c v c1 h
  simp only [bind_apply] at h
  cases hm : m c with
  | undefined => rw [hm] at h; cases h
  | throw e c0 => rw [hm] at h; cases h
  | ok a c0 =>
    rw [hm] at h
    have e1 := h1 c a c0 hm
    have e2 := h2 a c0 v c1 h
    omega

theorem shift_ite {α : Type} {d : Int} (p : Prop) [Decidable p] {m1 m2 : M α}
    (h1 : Shift d m1) (h2 : Shift d m2) : Shift d (if p then m1 else m2) := by
  split
  · exact h1
  · exact h2

theorem shift_push (v : ℚ) : Shift 1 (push v) := by
  intro c u c1 h
  simp only [push, Outcome.ok.injEq] at h
  rw [← h.2]
  simp

theorem shift_pop : Shift (-1) pop := by
  rintro ⟨stack, history⟩ v c1 h
  cases stack with
  | nil => cases h
  | cons x rest =>
    simp only [pop, Outcome.ok.injEq] at h
    rw [← h.2]
    simp

theorem shift_size : Shift 0 size := by
  intro c v c1 h
  simp only [size, Outcome.ok.injEq] at h
  rw [← h.2]
  simp

theorem shift_stackEmpty : Shift 0 stackEmpty := by
  intro c v c1 h
  simp only [stackEmpty, Outcome.ok.injEq] at h
  rw [← h.2]
  simp

theorem shift_guard {α β : Type} {d : Int} (p : Prop) [Decidable p] (e : RPNError)
    (f : α → M β) (g : PUnit → M β) (h : ∀ u, Shift d (g u)) :
    Shift d (if p then (raise e : M α) >>= f else (pure PUnit.unit : M PUnit) >>= g) := by
  split
  · exact shift_raise_bind d e f
  · intro c v c1 hrun
    exact h PUnit.unit c v c1 hrun

theorem shift_calculate (L : CLib) (op : String) (hop : op ∈ operators) :
    Shift (1 - (arity op : Int)) (calculate L op) := by
  simp only [operators, List.mem_cons, List.mem_singleton, List.not_mem_nil, or_false] at hop
  rcases hop with h | h | h | h | h | h | h | h | h | h | h <;> subst h <;>
    unfold calculate <;> simp only [String.reduceEq, if_true, if_false, arity, or_self,
      or_true, true_or, or_false] <;>
    repeat' first
      | exact shift_pure _
      | exact shift_push _
      | exact shift_pop
      | exact shift_size
      | exact shift_stackEmpty
      | exact shift_of_keeps (keeps_staticCastInt _)
      | exact shift_of_keeps (keeps_fibonacci _)
      | exact shift_of_keeps (keeps_pascal _ _)
      | apply shift_guard
      | apply shift_bind
      | rfl
      | intro _

theorem calculate_short_stack (L : CLib) (op : String) (c : RPNCalculator)
    (hop : op ∈ operators) (hlen : c.stack.length < arity op) :
    calculate L op c = .throw (.needOperands (arity op) op) c := by
  obtain ⟨stack, history⟩ := c
  simp only [operators, List.mem_cons, List.mem_singleton, List.not_mem_nil, or_false] at hop
  rcases hop with h | h | h | h | h | h | h | h | h | h | h <;> subst h <;>
    simp [arity] at hlen <;>
    first
    | (subst hlen; simp [calculate, arity, stackEmpty, raise])
    | simp [calculate, arity, size, raise, hlen]

theorem arity_eq (op : String) (hop : op ∈ operators) :
    (arity op : Int) = 1 + (if isBinaryOperator op = true then 1 else 0) := by
  simp only [operators, List.mem_cons, List.mem_singleton, List.not_mem_nil, or_false] at hop
  rcases hop with h | h | h | h | h | h | h | h | h | h | h <;> subst h <;> decide

theorem isNumber_of_binary (t : String) (h : isBinaryOperator t = true) :
    isNumber t = false ∧ t ∈ operators := by
  simp only [isBinaryOperator, Bool.or_eq_true, decide_eq_true_eq] at h
  rcases h with ((((h | h) | h) | h) | h) | h <;> subst h <;> decide

theorem tokenStep_size (L : CLib) (t : String) (c c1 : RPNCalculator)
    (h : tokenStep L t c = .ok () c1) :
    1 ≤ c1.stack.length ∧
    (c1.stack.length : Int) = (c.stack.length : Int) +
      (if isNumber t = true then 1 else 0) - (if isBinaryOperator t = true then 1 else 0) := by
  unfold tokenStep at h
  cases hnum : isNumber t
  · rw [hnum] at h
    simp only [Bool.false_eq_true, if_false] at h
    cases hop : isOperator t
    · rw [hop] at h
      simp only [Bool.false_eq_true, if_false] at h
      cases h
    · rw [hop] at h
      simp only [if_true] at h
      have hmem := (isOperator_iff t).1 hop
      have hshift := shift_calculate L t hmem c () c1 h
      have harity := arity_eq t hmem
      have hlen : ¬ (c.stack.length < arity t) := by
        intro hlt
        rw [calculate_short_stack L t c hmem hlt] at h
        cases h
      simp only [Bool.false_eq_true, if_false]
      constructor <;> omega
  · rw [hnum] at h
    simp only [if_true, bind_apply] at h
    have hbin : isBinaryOperator t = false := by
      cases hb : isBinaryOperator t
      · rfl
      · rw [(isNumber_of_binary t hb).1] at hnum
        cases hnum
    rcases stod_cases t c with h2 | ⟨w, h2⟩
    · rw [h2] at h; cases h
    · rw [h2] at h
      simp only [push, Outcome.ok.injEq, true_and] at h
      rw [← h, hbin]
      simp

theorem processTokens_size (L : CLib) (tokens : List String) :
    ∀ (c c1 : RPNCalculator), processTokens L tokens c = .ok () c1 →
      (tokens ≠ [] → 1 ≤ c1.stack.length) ∧
      (c1.stack.length : Int) =
        (c.stack.length : Int) + (numberCount tokens : Int) - (binaryCount tokens : Int) := by
  induction tokens with
  | nil =>
    intro c c1 h
    simp only [processTokens, pure_apply, Outcome.ok.injEq, true_and] at h
    subst h
    simp [numberCount, binaryCount]
  | cons t rest ih =>
    intro c c1 h
    rw [processTokens_cons] at h
    cases hstep : tokenStep L t c with
    | undefined => rw [hstep] at h; cases h
    | throw e c0 => rw [hstep] at h; cases h
    | ok u c0 =>
      rw [hstep] at h
      simp only at h
      obtain ⟨h1, h2⟩ := tokenStep_size L t c c0 hstep
      obtain ⟨h3, h4⟩ := ih c0 c1 h
      have hn : (numberCount (t :: rest) : Int) =
          (numberCount rest : Int) + (if isNumber t = true then 1 else 0) := by
        simp only [numberCount, List.countP_cons]
        split <;> simp
      have hb : (binaryCount (t :: rest) : Int) =
          (binaryCount rest : Int) + (if isBinaryOperator t = true then 1 else 0) := by
        simp only [binaryCount, List.countP_cons]
        split <;> simp
      constructor
      · intro _
        cases rest with
        | nil =>
          simp only [processTokens, pure_apply, Outcome.ok.injEq, true_and] at h
          rw [← h]
          exact h1
        | cons t2 rest2 => exact h3 (by simp)
      · rw [hn, hb, h4, h2]
        ring

/-- C19: stack-size accounting.  A number token that is converted raises the
stack size by 1, a successful unary operator leaves it unchanged and a
successful binary operator lowers it by 1; hence, when `processExpression`
succeeds from an empty stack, the number tokens are one more than the
binary-operator tokens and every non-empty prefix of the tokens holds
strictly more number tokens than binary-operator tokens.  The number token
"." is the exception to the first statement: it is not converted and the
stack size does not change. -/
theorem stack_accounting (L : CLib) :
    (isNumber "." = true ∧
      ∀ c : RPNCalculator, tokenStep L "." c = .throw .stodInvalidArgument c) ∧
    (∀ (t : String) (c c1 : RPNCalculator), isNumber t = true →
      tokenStep L t c = .ok () c1 → c1.stack.length = c.stack.length + 1) ∧
    (∀ (op : String) (c c1 : RPNCalculator), isUnaryOperator op = true →
      calculate L op c = .ok () c1 → c1.stack.length = c.stack.length) ∧
    (∀ (op : String) (c c1 : RPNCalculator), isBinaryOperator op = true →
      calculate L op c = .ok () c1 → c1.stack.length + 1 = c.stack.length) ∧
    (∀ (expression : String) (history : List String) (v : ℚ) (c1 : RPNCalculator),
      processExpression L expression ⟨[], history⟩ = .ok v c1 →
        numberCount (tokenize expression) = binaryCount (tokenize expression) + 1 ∧
        ∀ pre post : List String, tokenize expression = pre ++ post → pre ≠ [] →
          binaryCount pre < numberCount pre) := by
  refine ⟨⟨by decide, fun c => by simp [tokenStep, isNumber, isNumberLoop, stod]⟩, ?_, ?_, ?_, ?_⟩
  · intro t c c1 hnum h
    have hbin : isBinaryOperator t = false := by
      cases hb : isBinaryOperator t
      · rfl
      · rw [(isNumber_of_binary t hb).1] at hnum
        cases hnum
    have := (tokenStep_size L t c c1 h).2
    rw [hnum, hbin] at this
    simp only [if_true, Bool.false_eq_true, if_false] at this
    omega
  · intro op c c1 hun h
    have hmem : op ∈ operators ∧ arity op = 1 := by
      simp only [isUnaryOperator, Bool.or_eq_true, decide_eq_true_eq] at hun
      rcases hun with (((hun | hun) | hun) | hun) | hun <;> subst hun <;> decide
    have := shift_calculate L op hmem.1 c () c1 h
    rw [hmem.2] at this
    omega
  · intro op c c1 hbin h
    have hmem := (isNumber_of_binary op hbin).2
    have hshift := shift_calculate L op hmem c () c1 h
    have harity := arity_eq op hmem
    rw [hbin] at harity
    simp only [if_true] at harity
    omega
  · intro expression history v c1 hok
    rw [processExpression_eq] at hok
    cases hrun : processTokens L (tokenize expression) ⟨[], history⟩ with
    | undefined => rw [hrun] at hok; cases hok
    | throw e c0 => rw [hrun] at hok; cases hok
    | ok u c0 =>
      rw [hrun] at hok
      have hone : c0.stack.length = 1 := by
        obtain ⟨stack, h0⟩ := c0
        match stack, hok with
        | [], hok => cases hok
        | [w], _ => rfl
        | w :: x :: rest, hok => cases hok
      have hsize := (processTokens_size L (tokenize expression) _ _ hrun).2
      simp only [List.length_nil, Nat.cast_zero, zero_add] at hsize
      refine ⟨by omega, ?_⟩
      intro pre post hsplit hne
      rw [hsplit, processTokens_append] at hrun
      cases hpre : processTokens L pre ⟨[], history⟩ with
      | undefined => rw [hpre] at hrun; cases hrun
      | throw e cp => rw [hpre] at hrun; cases hrun
      | ok u2 cp =>
        obtain ⟨hpos, hcount⟩ := processTokens_size L pre _ _ hpre
        have := hpos hne
        simp only [List.length_nil, Nat.cast_zero, zero_add] at hcount
        omega

/-! ## The loop invariant of `pascal` -/

theorem pascalAcc_eq_choose (r : Nat) : ∀ i : Nat, i ≤ r → pascalAcc r i = (Nat.choose r i : ℚ) := by
  intro i
  induction i with
  | zero => intro _; simp [pascalAcc]
  | succ j ih =>
    intro hj
    rw [pascalAcc, ih (by omega)]
    exact (choose_step r j).resolve_right (by omega)

theorem pascalLoop_reaches (r m : Nat) (hmr : m ≤ r) (hr : (r : Int) ≤ INT_MAX)
    (c : RPNCalculator) :
    ∀ i : Nat, i ≤ m → (i : Int) < INT_MAX →
      pascalLoop r m 1 1 c = pascalLoop r m ((i : Int) + 1) (pascalAcc r i) c := by
  intro i
  induction i with
  | zero => intro _ _; simp [pascalAcc]
  | succ j ih =>
    intro hj hlt
    rw [ih (by omega) (by push_cast at hlt; omega)]
    rw [pascalLoop]
    have hle : (j : Int) + 1 ≤ m := by omega
    have hrange : INT_MIN ≤ (r : Int) - ((j : Int) + 1) ∧ (r : Int) - ((j : Int) + 1) ≤ INT_MAX ∧
        (r : Int) - ((j : Int) + 1) + 1 ≤ INT_MAX := by
      simp only [INT_MIN, INT_MAX] at *
      omega
    have hlt2 : (j : Int) + 1 < INT_MAX := by push_cast at hlt; omega
    simp only [hle, hrange, hlt2, dite_true, if_true, and_self]
    rw [pascalAcc]
    push_cast
    rfl

/-- The loop invariant of `pascal` over exact arithmetic: the accumulator after
`i` iterations is `C(row, i)`, a natural number; the dividend of iteration
`i + 1` is `(i + 1) * C(row, i + 1)`; no accumulator value exceeds
`C(row, row / 2)`; and while the counter stays in the range of `int` the run
of the loop passes through these accumulator values. -/
theorem pascal_loop_invariant_exact (row col i : Nat) (hcr : col ≤ row) (hi : i ≤ col) :
    pascalAcc row i = (Nat.choose row i : ℚ) ∧
    (∃ k : Nat, pascalAcc row i = (k : ℚ)) ∧
    (i + 1 ≤ col →
      pascalAcc row i * ((row - ((i : Int) + 1) + 1 : Int) : ℚ) =
        (((i + 1) * Nat.choose row (i + 1) : Nat) : ℚ)) ∧
    pascalAcc row i ≤ (Nat.choose row (row / 2) : ℚ) ∧
    ((row : Int) ≤ INT_MAX → (i : Int) < INT_MAX → ∀ c : RPNCalculator,
      pascalLoop row col 1 1 c = pascalLoop row col ((i : Int) + 1) (pascalAcc row i) c) := by
  have hacc := pascalAcc_eq_choose row i (by omega)
  refine ⟨hacc, ⟨_, hacc⟩, ?_, ?_, ?_⟩
  · intro hnext
    have hnat : Nat.choose row (i + 1) * (i + 1) = Nat.choose row i * (row - i) :=
      Nat.choose_succ_right_eq row i
    have hle : i ≤ row := by omega
    rw [hacc]
    have hcast : ((row - ((i : Int) + 1) + 1 : Int) : ℚ) = ((row - i : Nat) : ℚ) := by
      rw [Nat.cast_sub hle]
      push_cast
      ring
    rw [hcast]
    have := congrArg (fun x : Nat => (x : ℚ)) hnat
    simp only [Nat.cast_mul] at this
    rw [← this]
    push_cast
    ring
  · rw [hacc]
    exact_mod_cast Nat.choose_le_middle i row
  · intro hrow hlt c
    exact pascalLoop_reaches row col hcr hrow c i hi hlt

/-! ## Where binary64 and exact arithmetic agree -/

set_option maxRecDepth 1000000 in
theorem pascalRowExact_0 : pascalRowExact 0 = true := by decide

set_option maxRecDepth 1000000 in
theorem pascalRowExact_1 : pascalRowExact 1 = true := by decide

set_option maxRecDepth 1000000 in
theorem pascalRowExact_2 : pascalRowExact 2 = true := by decide

set_option maxRecDepth 1000000 in
theorem pascalRowExact_3 : pascalRowExact 3 = true := by decide

set_option maxRecDepth 1000000 in
theorem pascalRowExact_4 : pascalRowExact 4 = true := by decide

set_option maxRecDepth 1000000 in
theorem pascalRowExact_5 : pascalRowExact 5 = true := by decide

set_option maxRecDepth 1000000 in
theorem pascalRowExact_6 : pascalRowExact 6 = true := by decide

set_option maxRecDepth 1000000 in
theorem pascalRowExact_7 : pascalRowExact 7 = true := by decide

set_option maxRecDepth 1000000 in
theorem pascalRowExact_8 : pascalRowExact 8 = true := by decide

set_option maxRecDepth 1000000 in
theorem pascalRowExact_9 : pascalRowExact 9 = true := by decide

set_option maxRecDepth 1000000 in
theorem pascalRowExact_10 : pascalRowExact 10 = true := by decide

set_option maxRecDepth 1000000 in
theorem pascalRowExact_11 : pascalRowExact 11 = true := by decide

set_option maxRecDepth 1000000 in
theorem pascalRowExact_12 : pascalRowExact 12 = true := by decide

set_option maxRecDepth 1000000 in
theorem pascalRowExact_13 : pascalRowExact 13 = true := by decide

set_option maxRecDepth 1000000 in
theorem pascalRowExact_14 : pascalRowExact 14 = true := by decide

set_option maxRecDepth 1000000 in
theorem pascalRowExact_15 : pascalRowExact 15 = true := by decide

set_option maxRecDepth 1000000 in
theorem pascalRowExact_16 : pascalRowExact 16 = true := by decide

set_option maxRecDepth 1000000 in
theorem pascalRowExact_17 : pascalRowExact 17 = true := by decide

set_option maxRecDepth 1000000 in
theorem pascalRowExact_18 : pascalRowExact 18 = true := by decide

set_option maxRecDepth 1000000 in
theorem pascalRowExact_19 : pascalRowExact 19 = true := by decide

set_option maxRecDepth 1000000 in
theorem pascalRowExact_20 : pascalRowExact 20 = true := by decide

set_option maxRecDepth 1000000 in
theorem pascalRowExact_21 : pascalRowExact 21 = true := by decide

set_option maxRecDepth 1000000 in
theorem pascalRowExact_22 : pascalRowExact 22 = true := by decide

set_option maxRecDepth 1000000 in
theorem pascalRowExact_23 : pascalRowExact 23 = true := by decide

set_option maxRecDepth 1000000 in
theorem pascalRowExact_24 : pascalRowExact 24 = true := by decide

set_option maxRecDepth 1000000 in
theorem pascalRowExact_25 : pascalRowExact 25 = true := by decide

set_option maxRecDepth 1000000 in
theorem pascalRowExact_26 : pascalRowExact 26 = true := by decide

set_option maxRecDepth 1000000 in
theorem pascalRowExact_27 : pascalRowExact 27 = true := by decide

set_option maxRecDepth 1000000 in
theorem pascalRowExact_28 : pascalRowExact 28 = true := by decide

set_option maxRecDepth 1000000 in
theorem pascalRowExact_29 : pascalRowExact 29 = true := by decide

set_option maxRecDepth 1000000 in
theorem pascalRowExact_30 : pascalRowExact 30 = true := by decide

set_option maxRecDepth 1000000 in
theorem pascalRowExact_31 : pascalRowExact 31 = true := by decide

set_option maxRecDepth 1000000 in
theorem pascalRowExact_32 : pascalRowExact 32 = true := by decide

set_option maxRecDepth 1000000 in
theorem pascalRowExact_33 : pascalRowExact 33 = true := by decide

set_option maxRecDepth 1000000 in
theorem pascalRowExact_34 : pascalRowExact 34 = true := by decide

set_option maxRecDepth 1000000 in
theorem pascalRowExact_35 : pascalRowExact 35 = true := by decide

set_option maxRecDepth 1000000 in
theorem pascalRowExact_36 : pascalRowExact 36 = true := by decide

set_option maxRecDepth 1000000 in
theorem pascalRowExact_37 : pascalRowExact 37 = true := by decide

set_option maxRecDepth 1000000 in
theorem pascalRowExact_38 : pascalRowExact 38 = true := by decide

set_option maxRecDepth 1000000 in
theorem pascalRowExact_39 : pascalRowExact 39 = true := by decide

set_option maxRecDepth 1000000 in
theorem pascalRowExact_40 : pascalRowExact 40 = true := by decide

set_option maxRecDepth 1000000 in
theorem pascalRowExact_41 : pascalRowExact 41 = true := by decide

set_option maxRecDepth 1000000 in
theorem pascalRowExact_42 : pascalRowExact 42 = true := by decide

set_option maxRecDepth 1000000 in
theorem pascalRowExact_43 : pascalRowExact 43 = true := by decide

set_option maxRecDepth 1000000 in
theorem pascalRowExact_44 : pascalRowExact 44 = true := by decide

set_option maxRecDepth 1000000 in
theorem pascalRowExact_45 : pascalRowExact 45 = true := by decide

set_option maxRecDepth 1000000 in
theorem pascalRowExact_46 : pascalRowExact 46 = true := by decide

set_option maxRecDepth 1000000 in
theorem pascalRowExact_47 : pascalRowExact 47 = true := by decide

set_option maxRecDepth 1000000 in
theorem pascalRowExact_48 : pascalRowExact 48 = true := by decide

set_option maxRecDepth 1000000 in
theorem pascalRowExact_49 : pascalRowExact 49 = true := by decide

set_option maxRecDepth 1000000 in
theorem pascalRowExact_50 : pascalRowExact 50 = true := by decide

set_option maxRecDepth 1000000 in
theorem pascalRowExact_51 : pascalRowExact 51 = true := by decide

set_option maxRecDepth 1000000 in
theorem pascalRowExact_52 : pascalRowExact 52 = true := by decide

set_option maxRecDepth 1000000 in
theorem pascalRowExact_53 : pascalRowExact 53 = true := by decide

set_option maxRecDepth 1000000 in
theorem pascalRowExact_54 : pascalRowExact 54 = true := by decide

/-- Every row up to 54 is computed without rounding in binary64. -/
theorem pascalAccDouble_small (row : Nat) (hrow : row < 55) : pascalRowExact row = true := by
  interval_cases row
  exacts [
    pascalRowExact_0, pascalRowExact_1, pascalRowExact_2, pascalRowExact_3, pascalRowExact_4,
    pascalRowExact_5, pascalRowExact_6, pascalRowExact_7, pascalRowExact_8, pascalRowExact_9,
    pascalRowExact_10, pascalRowExact_11, pascalRowExact_12, pascalRowExact_13,
    pascalRowExact_14, pascalRowExact_15, pascalRowExact_16, pascalRowExact_17,
    pascalRowExact_18, pascalRowExact_19, pascalRowExact_20, pascalRowExact_21,
    pascalRowExact_22, pascalRowExact_23, pascalRowExact_24, pascalRowExact_25,
    pascalRowExact_26, pascalRowExact_27, pascalRowExact_28, pascalRowExact_29,
    pascalRowExact_30, pascalRowExact_31, pascalRowExact_32, pascalRowExact_33,
    pascalRowExact_34, pascalRowExact_35, pascalRowExact_36, pascalRowExact_37,
    pascalRowExact_38, pascalRowExact_39, pascalRowExact_40, pascalRowExact_41,
    pascalRowExact_42, pascalRowExact_43, pascalRowExact_44, pascalRowExact_45,
    pascalRowExact_46, pascalRowExact_47, pascalRowExact_48, pascalRowExact_49,
    pascalRowExact_50, pascalRowExact_51, pascalRowExact_52, pascalRowExact_53,
    pascalRowExact_54]

set_option maxRecDepth 1000000 in
theorem pascalAccDouble_55_26 :
    pascalAccDouble 55 26 = .finite 7121194697259719 (-1) := by
  decide

theorem choose_55_26 : Nat.choose 55 26 = 3560597348629860 := by
  rw [Nat.choose_eq_descFactorial_div_factorial]
  decide

/-- For `i ≤ row ≤ 54` the binary64 accumulator of `pascal` after `i` iterations
is `C(row, i)`, and the dividend of the next iteration is exactly
`(i + 1) * C(row, i + 1)`. -/
theorem pascalAccDouble_exact (row i : Nat) (hrow : row ≤ 54) (hi : i ≤ row) :
    (pascalAccDouble row i).isNat (Nat.choose row i) = true ∧
    (i + 1 ≤ row →
      ((pascalAccDouble row i).mulInt (row - (i + 1) + 1)).isNat
        ((i + 1) * Nat.choose row (i + 1)) = true) := by
  have h := of_decide_eq_true (pascalAccDouble_small row (by omega)) i (by omega)
  rw [Bool.and_eq_true, ← Nat.choose_eq_descFactorial_div_factorial] at h
  refine ⟨h.1, fun hnext => ?_⟩
  have hmul : (i + 1) * Nat.choose row (i + 1) = (row - (i + 1) + 1) * Nat.choose row i := by
    have h1 : Nat.choose row (i + 1) * (i + 1) = Nat.choose row i * (row - i) :=
      Nat.choose_succ_right_eq row i
    have h2 : row - (i + 1) + 1 = row - i := by omega
    rw [h2, Nat.mul_comm, h1, Nat.mul_comm]
  rw [hmul]
  exact h.2

/-- An odd multiple of one half is no natural number. -/
theorem isNat_half (m k : Nat) (hodd : m % 2 = 1) : (Dbl.finite m (-1)).isNat k = false := by
  have h1 : (-1 : Int).toNat = 0 := by decide
  have h2 : (- (-1 : Int)).toNat = 1 := by decide
  simp only [Dbl.isNat, h1, h2, pow_zero, pow_one, mul_one, decide_eq_false_iff_not]
  omega

theorem pascalAccDouble_55_26_value :
    (pascalAccDouble 55 26).value = some (7121194697259719 / 2) := by
  rw [pascalAccDouble_55_26]
  norm_num [Dbl.value]

/-! ## The `fib` and `pascal` operators in the program's arithmetic -/

/-- C20 (counterexample): in binary64 arithmetic the accumulator of
`pascal(55, 26)` after iteration 26 is 7121194697259719 / 2 =
3560597348629859.5: it is not a natural number, so it is not `C(55, 26)`, and
a fractional intermediate value has arisen. -/
theorem pascal_double_accumulator_fractional :
    pascalAccDouble 55 26 = .finite 7121194697259719 (-1) ∧
    (pascalAccDouble 55 26).value = some (7121194697259719 / 2) ∧
    (∀ k : Nat, (pascalAccDouble 55 26).isNat k = false) ∧
    Nat.choose 55 26 = 3560597348629860 := by
  refine ⟨pascalAccDouble_55_26, pascalAccDouble_55_26_value, ?_, choose_55_26⟩
  intro k
  rw [pascalAccDouble_55_26]
  exact isNat_half 7121194697259719 k (by decide)

/-- C20 (amended): loop invariant of `pascal`.  For `0 ≤ col ≤ row ≤ 54` and
every `i` with `0 ≤ i ≤ col`, the `double` accumulator after the `i`-th
iteration is exactly `C(row, i)`: every value it takes is a non-negative
integer, the dividend of the next iteration is exactly
`(i + 1) * C(row, i + 1)`, so each division is exact, and no accumulator value
exceeds the largest binomial coefficient of the row.  For every row the same
holds of the accumulator over exact arithmetic. -/
theorem pascal_loop_invariant (row col i : Nat) (hcr : col ≤ row) (hi : i ≤ col) :
    (row ≤ 54 →
      (pascalAccDouble row i).isNat (Nat.choose row i) = true ∧
      (i + 1 ≤ col →
        ((pascalAccDouble row i).mulInt (row - (i + 1) + 1)).isNat
          ((i + 1) * Nat.choose row (i + 1)) = true ∧
        (pascalAccDouble row (i + 1)).isNat (Nat.choose row (i + 1)) = true) ∧
      Nat.choose row i ≤ Nat.choose row (row / 2)) ∧
    (pascalAcc row i = (Nat.choose row i : ℚ) ∧
      (∃ k : Nat, pascalAcc row i = (k : ℚ)) ∧
      (i + 1 ≤ col →
        pascalAcc row i * ((row - ((i : Int) + 1) + 1 : Int) : ℚ) =
          (((i + 1) * Nat.choose row (i + 1) : Nat) : ℚ)) ∧
      pascalAcc row i ≤ (Nat.choose row (row / 2) : ℚ) ∧
      ((row : Int) ≤ INT_MAX → (i : Int) < INT_MAX → ∀ c : RPNCalculator,
        pascalLoop row col 1 1 c = pascalLoop row col ((i : Int) + 1) (pascalAcc row i) c)) := by
  refine ⟨fun hrow => ?_, pascal_loop_invariant_exact row col i hcr hi⟩
  have h := pascalAccDouble_exact row i hrow (by omega)
  refine ⟨h.1, fun hnext => ⟨h.2 (by omega), ?_⟩, Nat.choose_le_middle i row⟩
  exact (pascalAccDouble_exact row (i + 1) hrow (by omega)).1

/-- C20 at a concrete input: in row 4 the `double` accumulator after 2
iterations is `C(4, 2) = 6`, the dividend of the third iteration is
`3 * C(4, 3) = 12`, and the accumulator is then `C(4, 3) = 4`. -/
theorem pascal_loop_invariant_witness :
    (pascalAccDouble 4 2).isNat (Nat.choose 4 2) = true ∧
    ((pascalAccDouble 4 2).mulInt (4 - (2 + 1) + 1)).isNat ((2 + 1) * Nat.choose 4 (2 + 1)) = true ∧
    (pascalAccDouble 4 (2 + 1)).isNat (Nat.choose 4 (2 + 1)) = true ∧
    Nat.choose 4 2 = 6 := by
  have h := (pascal_loop_invariant 4 4 2 (by decide) (by decide)).1 (by decide)
  exact ⟨h.1, (h.2.1 (by decide)).1, (h.2.1 (by decide)).2, by decide⟩

end RPN
